import Mathlib

/-!
Verification of the propositional-logic formula engine in
`propositions/syntax.py`, `propositions/semantics.py` and
`propositions/operators.py` (a Python implementation following
"Mathematical Logic through Python").

Formulas are embedded as a tree whose roots are the source's root strings.
The Python `Formula` constructor enforces that a node's arity matches the
class of its root symbol (variable/constant leaves have no children, `~`
has one, binary operators have two); Lean values outside the `wf`
predicate therefore correspond to no constructible Python object, and the
theorems carry `wf` wherever a claim quantifies over "formulas".

Models (`Model`) are embedded as association lists mirroring Python
dictionaries; on the duplicate-free key lists used throughout the source,
association-list lookup coincides with dictionary lookup.  `evaluate`
returns `Option Bool`: `none` corresponds to the Python function raising
(a failed assertion, `KeyError`, or `ValueError`), `some b` to it
returning the truth value `b`.
-/

namespace MLTP

/-- Source `is_variable` (syntax.py): a lowercase letter p..z optionally
followed by decimal digits. -/
def is_variable (s : String) : Bool :=
  match s.data with
  | [] => false
  | c :: rest => decide ('p' ≤ c) && decide (c ≤ 'z') && (decide (rest = []) || rest.all Char.isDigit)

/-- Source `is_constant` (syntax.py). -/
def is_constant (s : String) : Bool := s = "T" || s = "F"

/-- Source `is_unary` (syntax.py). -/
def is_unary (s : String) : Bool := s = "~"

/-- Source `is_binary` (syntax.py). -/
def is_binary (s : String) : Bool :=
  s = "&" || s = "|" || s = "->" || s = "+" || s = "<->" || s = "-&" || s = "-|"

/-- Source class `Formula` (syntax.py): a tree of root strings.  The three
shapes mirror the three arities the Python constructor can build. -/
inductive Formula where
  | leaf (root : String)
  | unary (root : String) (first : Formula)
  | binary (root : String) (first : Formula) (second : Formula)
deriving DecidableEq

instance : Inhabited Formula := ⟨.leaf "p"⟩

/-- The invariant enforced by the Python `Formula.__init__` assertions:
root symbols match the arity of the node. -/
def Formula.wf : Formula → Bool
  | .leaf r => is_variable r || is_constant r
  | .unary r a => is_unary r && a.wf
  | .binary r a b => is_binary r && a.wf && b.wf

/-- Node count, used as a termination measure. -/
def Formula.size : Formula → Nat
  | .leaf _ => 1
  | .unary _ a => a.size + 1
  | .binary _ a b => a.size + b.size + 1

/-- Source `Formula.__repr__` (syntax.py), at the character-list level:
leaves print as their symbol, `~` prefixes its operand, binary nodes are
fully parenthesized. -/
def Formula.reprL : Formula → List Char
  | .leaf r => r.data
  | .unary r a => r.data ++ a.reprL
  | .binary r a b => '(' :: (a.reprL ++ r.data ++ b.reprL ++ [')'])

/-- Source `Formula.__repr__` as a `String`. -/
def Formula.reprS (f : Formula) : String := ⟨f.reprL⟩

/-- Source `Formula.variables` (syntax.py): the set of variable leaves.
The walk tests `is_variable` first, then ignores constants, then recurses. -/
def Formula.variables : Formula → Finset String
  | .leaf r => if is_variable r then {r} else ∅
  | .unary r a => if is_variable r then {r} else if is_constant r then ∅ else a.variables
  | .binary r a b =>
      if is_variable r then {r} else if is_constant r then ∅ else a.variables ∪ b.variables

/-- Source `Formula.operators` (syntax.py): every operator and constant
symbol occurring in the tree (constants included, variables excluded). -/
def Formula.operators : Formula → Finset String
  | .leaf r => if is_constant r then {r} else if is_variable r then ∅ else {r}
  | .unary r a => if is_constant r then {r} else if is_variable r then ∅ else insert r a.operators
  | .binary r a b =>
      if is_constant r then {r}
      else if is_variable r then ∅
      else insert r (a.operators ∪ b.operators)

/-- Source `Model` (semantics.py): a finite mapping from variable names to
truth values, embedded as an association list (Python `dict`). -/
abbrev Model := List (String × Bool)

/-- Dictionary lookup on a model. -/
def modelLookup : Model → String → Option Bool
  | [], _ => none
  | (k, b) :: rest, v => if k = v then some b else modelLookup rest v

/-- The keys of a model, mirroring `variables(model)` in semantics.py. -/
def modelKeys (m : Model) : List String := m.map Prod.fst

/-- Source `is_model` (semantics.py): every key is a variable name. -/
def is_model (m : Model) : Bool := m.all (fun kv => is_variable kv.1)

/-- Source `evaluate` (semantics.py).  `none` corresponds to the Python
function raising (missing variable, or the final `raise ValueError` for a
root outside the recognized operators); `some b` to returning `b`. -/
def evaluate : Formula → Model → Option Bool
  | .leaf r, m =>
      if is_constant r then some (r = "T")
      else if is_variable r then modelLookup m r
      else none
  | .unary r a, m =>
      if is_unary r then
        match evaluate a m with
        | some b => some (!b)
        | none => none
      else none
  | .binary r a b, m =>
      match evaluate a m, evaluate b m with
      | some x, some y =>
          if r = "&" then some (x && y)
          else if r = "|" then some (x || y)
          else if r = "->" then some (!x || y)
          else if r = "+" then some (x != y)
          else if r = "<->" then some (x == y)
          else if r = "-&" then some (!(x && y))
          else if r = "-|" then some (!(x || y))
          else none
      | _, _ => none

/-- Truth-value semantics under a total assignment; used to relate
`evaluate` across different models with the same variable values. -/
def evalT : Formula → (String → Bool) → Bool
  | .leaf r, σ => if r = "T" then true else if r = "F" then false else σ r
  | .unary _ a, σ => !(evalT a σ)
  | .binary r a b, σ =>
      let x := evalT a σ
      let y := evalT b σ
      if r = "&" then x && y
      else if r = "|" then x || y
      else if r = "->" then !x || y
      else if r = "+" then x != y
      else if r = "<->" then x == y
      else if r = "-&" then !(x && y)
      else if r = "-|" then !(x || y)
      else false

/-- The total assignment a model induces (defaulting absent keys). -/
def modelAssign (m : Model) (v : String) : Bool := (modelLookup m v).getD false

lemma is_variable_ne_T {r : String} (h : is_variable r = true) : r ≠ "T" := by
  intro hr; rw [hr] at h; exact absurd h (by decide)

lemma is_variable_ne_F {r : String} (h : is_variable r = true) : r ≠ "F" := by
  intro hr; rw [hr] at h; exact absurd h (by decide)

lemma is_variable_not_constant {r : String} (h : is_variable r = true) :
    is_constant r = false := by
  have h1 := is_variable_ne_T h
  have h2 := is_variable_ne_F h
  simp [is_constant, h1, h2]

/-- A variable's lookup membership: `modelLookup` succeeds iff the key is
present. -/
lemma modelLookup_isSome_iff {m : Model} {v : String} :
    (modelLookup m v).isSome = true ↔ v ∈ modelKeys m := by
  induction m with
  | nil => simp [modelLookup, modelKeys]
  | cons kv rest ih =>
      obtain ⟨k, b⟩ := kv
      by_cases hk : k = v
      · subst hk; simp [modelLookup, modelKeys]
      · simp [modelLookup, hk, modelKeys, ih]
        intro h; exact absurd h.symm hk

/-- On well-formed formulas whose variables all have values in the model,
`evaluate` computes the total-assignment semantics. -/
lemma evaluate_eq_evalT {f : Formula} {m : Model} (hwf : f.wf = true)
    (hdom : ∀ v ∈ f.variables, v ∈ modelKeys m) :
    evaluate f m = some (evalT f (modelAssign m)) := by
  induction f with
  | leaf r =>
      simp only [Formula.wf, Bool.or_eq_true] at hwf
      rcases hwf with hv | hc
      · have hnc := is_variable_not_constant hv
        have hT := is_variable_ne_T hv
        have hF := is_variable_ne_F hv
        have hmem : r ∈ modelKeys m := by
          apply hdom; simp [Formula.variables, hv]
        have hsome : (modelLookup m r).isSome = true := modelLookup_isSome_iff.mpr hmem
        obtain ⟨b, hb⟩ := Option.isSome_iff_exists.mp hsome
        simp [evaluate, evalT, hnc, hv, hb, hT, hF, modelAssign]
      · simp only [is_constant, Bool.or_eq_true, decide_eq_true_eq] at hc
        rcases hc with h | h <;> subst h <;> simp [evaluate, evalT, is_constant]
  | unary r a ih =>
      simp only [Formula.wf, Bool.and_eq_true] at hwf
      obtain ⟨hr, hwa⟩ := hwf
      simp only [is_unary, decide_eq_true_eq] at hr
      subst hr
      have hdom' : ∀ v ∈ a.variables, v ∈ modelKeys m := by
        intro v hv; apply hdom
        simpa [Formula.variables, is_variable, is_constant] using hv
      rw [evaluate, ih hwa hdom']
      simp [evalT, is_unary]
  | binary r a b iha ihb =>
      simp only [Formula.wf, Bool.and_eq_true] at hwf
      obtain ⟨⟨hr, hwa⟩, hwb⟩ := hwf
      simp only [is_binary, Bool.or_eq_true, decide_eq_true_eq] at hr
      have hrv : is_variable r = false := by
        rcases hr with ((((((h | h) | h) | h) | h) | h) | h) <;> subst h <;> decide
      have hrc : is_constant r = false := by
        rcases hr with ((((((h | h) | h) | h) | h) | h) | h) <;> subst h <;> decide
      have hda : ∀ v ∈ a.variables, v ∈ modelKeys m := by
        intro v hv; apply hdom; simp [Formula.variables, hrv, hrc, hv]
      have hdb : ∀ v ∈ b.variables, v ∈ modelKeys m := by
        intro v hv; apply hdom; simp [Formula.variables, hrv, hrc, hv]
      rw [evaluate, iha hwa hda, ihb hwb hdb]
      rcases hr with ((((((h | h) | h) | h) | h) | h) | h) <;> subst h <;> simp [evalT]

/-- Totality of `evaluate` on well-formed formulas over covering models. -/
lemma evaluate_isSome {f : Formula} {m : Model} (hwf : f.wf = true)
    (hdom : ∀ v ∈ f.variables, v ∈ modelKeys m) :
    ∃ b, evaluate f m = some b :=
  ⟨_, evaluate_eq_evalT hwf hdom⟩

/-- `evalT` only reads the assignment on the formula's variables. -/
lemma evalT_congr {f : Formula} {σ1 σ2 : String → Bool} (hwf : f.wf = true)
    (h : ∀ v ∈ f.variables, σ1 v = σ2 v) : evalT f σ1 = evalT f σ2 := by
  induction f with
  | leaf r =>
      simp only [Formula.wf, Bool.or_eq_true] at hwf
      rcases hwf with hv | hc
      · have hT := is_variable_ne_T hv
        have hF := is_variable_ne_F hv
        have := h r (by simp [Formula.variables, hv])
        simp [evalT, hT, hF, this]
      · simp only [is_constant, Bool.or_eq_true, decide_eq_true_eq] at hc
        rcases hc with hc | hc <;> subst hc <;> simp [evalT]
  | unary r a ih =>
      simp only [Formula.wf, Bool.and_eq_true] at hwf
      obtain ⟨hr, hwa⟩ := hwf
      simp only [is_unary, decide_eq_true_eq] at hr; subst hr
      have : ∀ v ∈ a.variables, σ1 v = σ2 v := by
        intro v hv; exact h v (by simpa [Formula.variables, is_variable, is_constant] using hv)
      simp [evalT, ih hwa this]
  | binary r a b iha ihb =>
      simp only [Formula.wf, Bool.and_eq_true] at hwf
      obtain ⟨⟨hr, hwa⟩, hwb⟩ := hwf
      simp only [is_binary, Bool.or_eq_true, decide_eq_true_eq] at hr
      have hrv : is_variable r = false := by
        rcases hr with ((((((hh | hh) | hh) | hh) | hh) | hh) | hh) <;> subst hh <;> decide
      have hrc : is_constant r = false := by
        rcases hr with ((((((hh | hh) | hh) | hh) | hh) | hh) | hh) <;> subst hh <;> decide
      have ha : ∀ v ∈ a.variables, σ1 v = σ2 v := by
        intro v hv; exact h v (by simp [Formula.variables, hrv, hrc, hv])
      have hb : ∀ v ∈ b.variables, σ1 v = σ2 v := by
        intro v hv; exact h v (by simp [Formula.variables, hrv, hrc, hv])
      simp [evalT, iha hwa ha, ihb hwb hb]

/-- C10.  `evaluate` depends only on the variables occurring in the
formula: two models that both cover the formula's variables and agree on
them give the same truth value; in particular extra variables in a model
never change the result. -/
theorem evaluate_extensional (f : Formula) (m1 m2 : Model) (hwf : f.wf = true)
    (_hm1 : is_model m1 = true) (_hm2 : is_model m2 = true)
    (hs1 : ∀ v ∈ f.variables, v ∈ modelKeys m1)
    (hs2 : ∀ v ∈ f.variables, v ∈ modelKeys m2)
    (hagree : ∀ v ∈ f.variables, modelLookup m1 v = modelLookup m2 v) :
    evaluate f m1 = evaluate f m2 := by
  rw [evaluate_eq_evalT hwf hs1, evaluate_eq_evalT hwf hs2]
  exact congrArg some (evalT_congr hwf (fun v hv => by simp [modelAssign, hagree v hv]))

/-- Witness for C10 at a concrete formula and model pair. -/
theorem evaluate_extensional_witness :
    evaluate (Formula.binary "&" (.leaf "p") (.unary "~" (.leaf "q")))
        [("p", true), ("q", false)] =
      evaluate (Formula.binary "&" (.leaf "p") (.unary "~" (.leaf "q")))
        [("p", true), ("q", false), ("r", true)] :=
  evaluate_extensional _ _ _ (by decide) (by decide) (by decide)
    (by decide) (by decide) (by decide)

/-- The cartesian product `itertools.product([False, True], repeat=n)`
used by `all_models`: all length-`n` Boolean lists, first coordinate
varying slowest, `false` before `true`. -/
def productBools : Nat → List (List Bool)
  | 0 => [[]]
  | n + 1 =>
      ((productBools n).map (fun bs => false :: bs)) ++
      ((productBools n).map (fun bs => true :: bs))

/-- Source `all_models` (semantics.py): one model per element of the
Boolean product, pairing the given variables with the values.  (Python
builds `dict(zip(variables, values))`; for duplicate-free variable lists,
as required by the spec, this is the association list `variables.zip`.) -/
def all_models (variable_list : List String) : List Model :=
  (productBools variable_list.length).map (fun vals => variable_list.zip vals)

/-- Source `truth_values` (semantics.py). -/
def truth_values (formula : Formula) (models : List Model) : List (Option Bool) :=
  models.map (fun m => evaluate formula m)

/-- The big-endian `n`-bit representation of `i`. -/
def bitsBE (n i : Nat) : List Bool := (List.range n).map (fun j => i.testBit (n - 1 - j))

lemma bitsBE_succ_lt {n i : Nat} (h : i < 2 ^ n) :
    bitsBE (n + 1) i = false :: bitsBE n i := by
  simp only [bitsBE, List.range_succ_eq_map, List.map_cons, List.map_map]
  refine List.cons_eq_cons.mpr ⟨?_, ?_⟩
  · simpa using Nat.testBit_lt_two_pow h
  · apply List.map_congr_left
    intro j _
    simp only [Function.comp]
    congr 1
    omega

lemma bitsBE_succ_ge {n i : Nat} (h : i < 2 ^ n) :
    bitsBE (n + 1) (2 ^ n + i) = true :: bitsBE n i := by
  simp only [bitsBE, List.range_succ_eq_map, List.map_cons, List.map_map]
  refine List.cons_eq_cons.mpr ⟨?_, ?_⟩
  · simp [Nat.testBit_two_pow_add_eq, Nat.testBit_lt_two_pow h]
  · apply List.map_congr_left
    intro j hj
    have hj' : j < n := by simpa using hj
    simp only [Function.comp]
    have hidx : n + 1 - 1 - j.succ = n - 1 - j := by omega
    rw [hidx]
    exact Nat.testBit_two_pow_add_gt (by omega) i

lemma bitsBE_length (n i : Nat) : (bitsBE n i).length = n := by
  simp [bitsBE]

/-- The Boolean product is the binary counter: its `i`-th element is the
big-endian `n`-bit representation of `i`. -/
lemma productBools_eq_map (n : Nat) :
    productBools n = (List.range (2 ^ n)).map (bitsBE n) := by
  induction n with
  | zero => rfl
  | succ n ih =>
      rw [productBools, ih]
      have h2 : 2 ^ (n + 1) = 2 ^ n + 2 ^ n := by ring
      rw [h2, List.range_add, List.map_append, List.map_map, List.map_map, List.map_map]
      congr 1
      · apply List.map_congr_left
        intro i hi
        simp only [List.mem_range] at hi
        exact (bitsBE_succ_lt hi).symm
      · apply List.map_congr_left
        intro i hi
        simp only [List.mem_range] at hi
        simp only [Function.comp]
        exact (bitsBE_succ_ge hi).symm

lemma mem_productBools_of_length {bs : List Bool} {n : Nat} (h : bs.length = n) :
    bs ∈ productBools n := by
  induction n generalizing bs with
  | zero =>
      have : bs = [] := List.length_eq_zero.mp h
      subst this; simp [productBools]
  | succ n ih =>
      match bs, h with
      | b :: bs', h =>
          have hlen : bs'.length = n := by simpa using h
          simp only [productBools, List.mem_append, List.mem_map]
          cases b
          · exact Or.inl ⟨bs', ih hlen, rfl⟩
          · exact Or.inr ⟨bs', ih hlen, rfl⟩

lemma bitsBE_inj {n i j : Nat} (hi : i < 2 ^ n) (hj : j < 2 ^ n)
    (h : bitsBE n i = bitsBE n j) : i = j := by
  apply Nat.eq_of_testBit_eq
  intro k
  by_cases hk : k < n
  · have hkk : n - 1 - k < n := by omega
    have := congrArg (fun l => l.getD (n - 1 - k) false) h
    simp only [bitsBE, List.getD_eq_getElem?_getD, List.getElem?_map,
      List.getElem?_range hkk, Option.map_some', Option.getD_some] at this
    have hidx : n - 1 - (n - 1 - k) = k := by omega
    rwa [hidx] at this
  · rw [Nat.testBit_lt_two_pow (lt_of_lt_of_le hi (Nat.pow_le_pow_right (by omega) (by omega))),
        Nat.testBit_lt_two_pow (lt_of_lt_of_le hj (Nat.pow_le_pow_right (by omega) (by omega)))]

/-- C9.  `all_models` yields exactly the `2 ^ n` assignments over the
given (distinct, valid) variable names, in binary-counter order: the
`i`-th model pairs the variables with the big-endian bits of `i`, so
earlier variables vary slower and `false` precedes `true`; every
assignment of the right length occurs; and on `["p", "q"]` the output is
the concrete four-model list of the spec. -/
theorem all_models_binary_counter (vl : List String)
    (_hvalid : ∀ v ∈ vl, is_variable v = true) (_hnodup : vl.Nodup) :
    all_models vl =
        (List.range (2 ^ vl.length)).map (fun i => vl.zip (bitsBE vl.length i))
      ∧ (all_models vl).length = 2 ^ vl.length
      ∧ (∀ bs : List Bool, bs.length = vl.length → vl.zip bs ∈ all_models vl)
      ∧ all_models ["p", "q"] =
          [[("p", false), ("q", false)], [("p", false), ("q", true)],
           [("p", true), ("q", false)], [("p", true), ("q", true)]] := by
  refine ⟨?_, ?_, ?_, by decide⟩
  · rw [all_models, productBools_eq_map, List.map_map]
    rfl
  · simp [all_models, productBools_eq_map]
  · intro bs hlen
    exact List.mem_map.mpr ⟨bs, mem_productBools_of_length hlen, rfl⟩

/-- Witness for C9 at the concrete variable list of the spec. -/
theorem all_models_binary_counter_witness :
    all_models ["p", "q"] =
      [[("p", false), ("q", false)], [("p", false), ("q", true)],
       [("p", true), ("q", false)], [("p", true), ("q", true)]] :=
  (all_models_binary_counter ["p", "q"] (by decide) (by decide)).2.2.2

/-- The ordered binary-operator match of `Formula._parse_prefix`
(syntax.py): the source tries the operator strings
`<->`, `->`, `-&`, `-|`, `+`, `&`, `|` in this order with `startswith`
and commits to the first that matches; pattern order realizes the same
first-match choice. -/
def binopSplit : List Char → Option (String × List Char)
  | '<' :: '-' :: '>' :: r => some ("<->", r)
  | '-' :: '>' :: r => some ("->", r)
  | '-' :: '&' :: r => some ("-&", r)
  | '-' :: '|' :: r => some ("-|", r)
  | '+' :: r => some ("+", r)
  | '&' :: r => some ("&", r)
  | '|' :: r => some ("|", r)
  | _ => none

/-- Source `Formula._parse_prefix` (syntax.py), with an explicit fuel
argument bounding the recursion depth (the wrapper `_parse_prefix` passes
more fuel than the input length, which the recursion never exceeds since
every recursive call consumes at least one character first).  On failure
the second component is the human-readable error message, as in the
source. -/
def parsePrefixCore : Nat → List Char → Option Formula × List Char
  | 0, s => (none, s)
  | _ + 1, [] => (none, "empty string".data)
  | fuel + 1, c :: cs =>
    if 'p' ≤ c ∧ c ≤ 'z' then
      (some (.leaf ⟨c :: cs.takeWhile Char.isDigit⟩), cs.dropWhile Char.isDigit)
    else if c = 'T' ∨ c = 'F' then
      (some (.leaf ⟨[c]⟩), cs)
    else if c = '~' then
      match parsePrefixCore fuel cs with
      | (some child, rem) => (some (.unary "~" child), rem)
      | (none, rem) => (none, rem)
    else if c = '(' then
      match parsePrefixCore fuel cs with
      | (none, rem) => (none, rem)
      | (some left, rem1) =>
        match binopSplit rem1 with
        | none => (none, "missing or invalid binary operator".data)
        | some (op, r2) =>
          match parsePrefixCore fuel r2 with
          | (none, rem) => (none, rem)
          | (some right, rem2) =>
            match rem2 with
            | ')' :: r3 => (some (.binary op left right), r3)
            | _ => (none, "missing closing paren".data)
    else (none, "expected lparen, variable, constant or unary".data)

/-- Source `Formula._parse_prefix` with adequate fuel. -/
def _parse_prefix (s : List Char) : Option Formula × List Char :=
  parsePrefixCore (s.length + 1) s

/-- Source `Formula.is_formula` (syntax.py). -/
def Formula.is_formula (s : String) : Bool :=
  match _parse_prefix s.data with
  | (some _, rem) => decide (rem = [])
  | (none, _) => false

/-- Source `Formula.parse` (syntax.py): defined (returns `some`) exactly
on valid representations, where it returns the parsed prefix. -/
def Formula.parse (s : String) : Option Formula :=
  match _parse_prefix s.data with
  | (some f, []) => some f
  | _ => none

/-- Suffix condition threaded through the round-trip proof: parsing stops
consuming digits exactly at the serialized boundary. -/
def noDigitHead : List Char → Prop
  | [] => True
  | c :: _ => c.isDigit = false

lemma takeWhile_digits {ds rest : List Char} (hds : ∀ x ∈ ds, x.isDigit = true)
    (hrest : noDigitHead rest) :
    (ds ++ rest).takeWhile Char.isDigit = ds ∧
      (ds ++ rest).dropWhile Char.isDigit = rest := by
  induction ds with
  | nil =>
      cases rest with
      | nil => simp
      | cons c t =>
          simp only [noDigitHead] at hrest
          simp [List.takeWhile, List.dropWhile, hrest]
  | cons d ds ih =>
      have hd : d.isDigit = true := hds d (by simp)
      have ih' := ih (fun x hx => hds x (by simp [hx]))
      simp [List.takeWhile, List.dropWhile, hd, ih'.1, ih'.2]

lemma is_variable_destruct {r : String} (h : is_variable r = true) :
    ∃ c ds, r.data = c :: ds ∧ 'p' ≤ c ∧ c ≤ 'z' ∧ ∀ x ∈ ds, x.isDigit = true := by
  unfold is_variable at h
  match hr : r.data with
  | [] => rw [hr] at h; exact absurd h (by simp)
  | c :: ds =>
      rw [hr] at h
      simp only [Bool.and_eq_true, Bool.or_eq_true, decide_eq_true_eq] at h
      obtain ⟨⟨h1, h2⟩, h3⟩ := h
      refine ⟨c, ds, rfl, h1, h2, ?_⟩
      rcases h3 with h3 | h3
      · subst h3; simp
      · intro x hx; exact List.all_eq_true.mp h3 x hx

/-- Parsing the serialization of a well-formed formula consumes exactly
the serialization and returns the formula, for any suffix that does not
begin with a digit. -/
lemma parsePrefixCore_reprL {f : Formula} (hwf : f.wf = true) :
    ∀ fuel rest, f.reprL.length < fuel → noDigitHead rest →
      parsePrefixCore fuel (f.reprL ++ rest) = (some f, rest) := by
  induction f with
  | leaf r =>
      intro fuel rest hfuel hrest
      simp only [Formula.wf, Bool.or_eq_true] at hwf
      cases fuel with
      | zero => omega
      | succ fuel =>
          rcases hwf with hv | hc
          · obtain ⟨c, ds, hdata, hc1, hc2, hds⟩ := is_variable_destruct hv
            have hr : r = ⟨c :: ds⟩ := by apply String.ext; rw [hdata]
            obtain ⟨ht, hd⟩ := takeWhile_digits hds hrest
            simp only [Formula.reprL, hdata, List.cons_append]
            simp only [parsePrefixCore]
            rw [if_pos ⟨hc1, hc2⟩, ht, hd, ← hr]
          · simp only [is_constant, Bool.or_eq_true, decide_eq_true_eq] at hc
            rcases hc with hc | hc <;> subst hc <;>
              simp only [Formula.reprL, List.singleton_append, parsePrefixCore] <;>
              rw [if_neg (by decide), if_pos (by decide)] <;> rfl
  | unary r a ih =>
      intro fuel rest hfuel hrest
      simp only [Formula.wf, Bool.and_eq_true] at hwf
      obtain ⟨hr, hwa⟩ := hwf
      simp only [is_unary, decide_eq_true_eq] at hr; subst hr
      cases fuel with
      | zero => omega
      | succ fuel =>
          have hlen : a.reprL.length < fuel := by
            simp only [Formula.reprL, List.length_append, List.length_cons,
              List.length_nil] at hfuel
            omega
          have hgoal : (Formula.unary "~" a).reprL ++ rest = '~' :: (a.reprL ++ rest) := by
            simp [Formula.reprL]
          rw [hgoal]
          simp only [parsePrefixCore, ih hwa fuel rest hlen hrest]
          simp
  | binary r a b iha ihb =>
      intro fuel rest hfuel hrest
      simp only [Formula.wf, Bool.and_eq_true] at hwf
      obtain ⟨⟨hr, hwa⟩, hwb⟩ := hwf
      cases fuel with
      | zero => omega
      | succ fuel =>
          have hla : a.reprL.length < fuel := by
            simp only [Formula.reprL, List.length_cons, List.length_append] at hfuel
            omega
          have hlb : b.reprL.length < fuel := by
            simp only [Formula.reprL, List.length_cons, List.length_append] at hfuel
            omega
          simp only [is_binary, Bool.or_eq_true, decide_eq_true_eq] at hr
          have hb := ihb hwb fuel (')' :: rest) hlb (by simp [noDigitHead])
          have hgoal : (Formula.binary r a b).reprL ++ rest =
              '(' :: (a.reprL ++ (r.data ++ (b.reprL ++ ')' :: rest))) := by
            simp [Formula.reprL]
          rw [hgoal]
          have hndr : noDigitHead (r.data ++ (b.reprL ++ ')' :: rest)) := by
            rcases hr with ((((((h | h) | h) | h) | h) | h) | h) <;> subst h <;>
              simp [noDigitHead]
          have ha := iha hwa fuel _ hla hndr
          simp only [parsePrefixCore, ha]
          rcases hr with ((((((h | h) | h) | h) | h) | h) | h) <;> subst h <;>
            simp [binopSplit, hb]

/-- C4.  Parsing the standard (fully parenthesized) string representation
of any well-formed formula returns the formula itself: `parse` composed
with serialization is the identity. -/
theorem parse_reprS (f : Formula) (hwf : f.wf = true) :
    Formula.parse f.reprS = some f := by
  unfold Formula.parse _parse_prefix Formula.reprS
  have hdata : (⟨f.reprL⟩ : String).data = f.reprL := rfl
  rw [hdata]
  have h := parsePrefixCore_reprL hwf (f.reprL.length + 1) [] (by omega)
    (by simp [noDigitHead])
  rw [List.append_nil] at h
  rw [h]

/-- Witness for C4 at a concrete formula exercising a variable with a
digit suffix, a unary and a binary operator. -/
theorem parse_reprS_witness :
    Formula.parse (Formula.binary "->" (.leaf "p45") (.unary "~" (.leaf "q"))).reprS =
      some (Formula.binary "->" (.leaf "p45") (.unary "~" (.leaf "q"))) :=
  parse_reprS _ (by decide)

/-- Source `Formula.polish` (syntax.py), at the character-list level:
prefix notation, root before operands, no delimiters. -/
def Formula.polishL : Formula → List Char
  | .leaf r => r.data
  | .unary r a => r.data ++ a.polishL
  | .binary r a b => r.data ++ a.polishL ++ b.polishL

/-- Source `Formula.polish` as a `String`. -/
def Formula.polish (f : Formula) : String := ⟨f.polishL⟩

/-- Source `Formula.parse_polish` recursion `parse_from` (syntax.py), with
a fuel argument bounding the recursion depth.  The branch order follows
the source: constants first, then variables, `~`, the one-character
binary operators `&` and `|`, then the `startswith('->')` test; every
other character raises (`none`). -/
def parsePolishCore (fuel : Nat) (s : List Char) : Option (Formula × List Char) :=
  match fuel, s with
  | 0, _ => none
  | _ + 1, [] => none
  | fuel + 1, c :: cs =>
    if c = 'T' ∨ c = 'F' then some (.leaf ⟨[c]⟩, cs)
    else if 'p' ≤ c ∧ c ≤ 'z' then
      some (.leaf ⟨c :: cs.takeWhile Char.isDigit⟩, cs.dropWhile Char.isDigit)
    else if c = '~' then
      match parsePolishCore fuel cs with
      | some (sub, rem) => some (.unary "~" sub, rem)
      | none => none
    else if c = '&' ∨ c = '|' then
      match parsePolishCore fuel cs with
      | some (left, rem1) =>
        match parsePolishCore fuel rem1 with
        | some (right, rem2) => some (.binary ⟨[c]⟩ left right, rem2)
        | none => none
      | none => none
    else if c = '-' then
      match cs with
      | '>' :: cs2 =>
        match parsePolishCore fuel cs2 with
        | some (left, rem1) =>
          match parsePolishCore fuel rem1 with
          | some (right, rem2) => some (.binary "->" left right, rem2)
          | none => none
        | none => none
      | _ => none
    else none

/-- Source `Formula.parse_polish` (syntax.py): `none` corresponds to the
Python function raising `ValueError` (empty input, unparsable position,
or trailing characters after a complete formula). -/
def Formula.parse_polish (s : String) : Option Formula :=
  if s.data = [] then none
  else
    match parsePolishCore (s.data.length + 1) s.data with
    | some (f, []) => some f
    | _ => none

lemma isDigit_false_of_ge_p {c : Char} (h : 'p' ≤ c) : c.isDigit = false := by
  simp only [Char.isDigit]
  have hv : UInt32.ofNat 112 ≤ c.val := h
  have hn : 112 ≤ c.val.toNat := UInt32.le_toNat_of_le (by decide) hv
  have hc : ¬ (c.val ≤ 57) := by
    intro hle
    have h2 : c.val.toNat ≤ 57 := UInt32.toNat_le_of_le (by decide) hle
    omega
  simp [hc]

lemma polishL_headNotDigit {f : Formula} (hwf : f.wf = true) (X : List Char) :
    noDigitHead (f.polishL ++ X) := by
  cases f with
  | leaf r =>
      simp only [Formula.wf, Bool.or_eq_true] at hwf
      rcases hwf with hv | hc
      · obtain ⟨c, ds, hdata, hc1, _, _⟩ := is_variable_destruct hv
        simp only [Formula.polishL, hdata, List.cons_append, noDigitHead]
        exact isDigit_false_of_ge_p hc1
      · simp only [is_constant, Bool.or_eq_true, decide_eq_true_eq] at hc
        rcases hc with hc | hc <;> subst hc <;> simp [Formula.polishL, noDigitHead]
  | unary r a =>
      simp only [Formula.wf, Bool.and_eq_true] at hwf
      obtain ⟨hr, _⟩ := hwf
      simp only [is_unary, decide_eq_true_eq] at hr; subst hr
      simp [Formula.polishL, noDigitHead]
  | binary r a b =>
      simp only [Formula.wf, Bool.and_eq_true] at hwf
      obtain ⟨⟨hr, _⟩, _⟩ := hwf
      simp only [is_binary, Bool.or_eq_true, decide_eq_true_eq] at hr
      rcases hr with ((((((h | h) | h) | h) | h) | h) | h) <;> subst h <;>
        simp [Formula.polishL, noDigitHead]

lemma polishL_ne_nil {f : Formula} (hwf : f.wf = true) : f.polishL ≠ [] := by
  cases f with
  | leaf r =>
      simp only [Formula.wf, Bool.or_eq_true] at hwf
      rcases hwf with hv | hc
      · obtain ⟨c, ds, hdata, _, _, _⟩ := is_variable_destruct hv
        simp [Formula.polishL, hdata]
      · simp only [is_constant, Bool.or_eq_true, decide_eq_true_eq] at hc
        rcases hc with hc | hc <;> subst hc <;> simp [Formula.polishL]
  | unary r a =>
      simp only [Formula.wf, Bool.and_eq_true] at hwf
      obtain ⟨hr, _⟩ := hwf
      simp only [is_unary, decide_eq_true_eq] at hr; subst hr
      simp [Formula.polishL]
  | binary r a b =>
      simp only [Formula.wf, Bool.and_eq_true] at hwf
      obtain ⟨⟨hr, _⟩, _⟩ := hwf
      simp only [is_binary, Bool.or_eq_true, decide_eq_true_eq] at hr
      rcases hr with ((((((h | h) | h) | h) | h) | h) | h) <;> subst h <;>
        simp [Formula.polishL]

/-- Parsing the Polish serialization of a well-formed formula over the
operators the Polish parser supports consumes exactly the serialization
and returns the formula. -/
lemma parsePolishCore_polishL {f : Formula} (hwf : f.wf = true)
    (hops : f.operators ⊆ ({"~", "&", "|", "->", "T", "F"} : Finset String)) :
    ∀ fuel rest, f.polishL.length < fuel → noDigitHead rest →
      parsePolishCore fuel (f.polishL ++ rest) = some (f, rest) := by
  induction f with
  | leaf r =>
      intro fuel rest hfuel hrest
      simp only [Formula.wf, Bool.or_eq_true] at hwf
      cases fuel with
      | zero => omega
      | succ fuel =>
          rcases hwf with hv | hc
          · obtain ⟨c, ds, hdata, hc1, hc2, hds⟩ := is_variable_destruct hv
            have hr : r = ⟨c :: ds⟩ := by apply String.ext; rw [hdata]
            obtain ⟨ht, hd⟩ := takeWhile_digits hds hrest
            have hcTF : ¬(c = 'T' ∨ c = 'F') := by
              rintro (rfl | rfl) <;> exact absurd hc1 (by decide)
            simp only [Formula.polishL, hdata, List.cons_append, parsePolishCore]
            rw [if_neg hcTF, if_pos ⟨hc1, hc2⟩, ht, hd, ← hr]
          · simp only [is_constant, Bool.or_eq_true, decide_eq_true_eq] at hc
            rcases hc with hc | hc <;> subst hc <;>
              simp only [Formula.polishL, List.singleton_append, parsePolishCore] <;>
              rw [if_pos (by decide)] <;> rfl
  | unary r a ih =>
      intro fuel rest hfuel hrest
      simp only [Formula.wf, Bool.and_eq_true] at hwf
      obtain ⟨hr, hwa⟩ := hwf
      simp only [is_unary, decide_eq_true_eq] at hr; subst hr
      have hopsa : a.operators ⊆ ({"~", "&", "|", "->", "T", "F"} : Finset String) := by
        intro x hx
        apply hops
        simp [Formula.operators, is_constant, is_variable, hx]
      cases fuel with
      | zero => omega
      | succ fuel =>
          have hlen : a.polishL.length < fuel := by
            simp only [Formula.polishL, List.length_append, List.length_cons,
              List.length_nil] at hfuel
            omega
          have hgoal : (Formula.unary "~" a).polishL ++ rest = '~' :: (a.polishL ++ rest) := by
            simp [Formula.polishL]
          rw [hgoal]
          simp only [parsePolishCore, ih hwa hopsa fuel rest hlen hrest]
          simp
  | binary r a b iha ihb =>
      intro fuel rest hfuel hrest
      simp only [Formula.wf, Bool.and_eq_true] at hwf
      obtain ⟨⟨hr, hwa⟩, hwb⟩ := hwf
      have hropset : r ∈ (Formula.binary r a b).operators := by
        have h1 : is_constant r = false := by
          simp only [is_binary, Bool.or_eq_true, decide_eq_true_eq] at hr
          rcases hr with ((((((h | h) | h) | h) | h) | h) | h) <;> subst h <;> decide
        have h2 : is_variable r = false := by
          simp only [is_binary, Bool.or_eq_true, decide_eq_true_eq] at hr
          rcases hr with ((((((h | h) | h) | h) | h) | h) | h) <;> subst h <;> decide
        simp [Formula.operators, h1, h2]
      have hrmem := hops hropset
      have hopsa : a.operators ⊆ ({"~", "&", "|", "->", "T", "F"} : Finset String) := by
        intro x hx
        apply hops
        have h1 : is_constant r = false := by
          simp only [is_binary, Bool.or_eq_true, decide_eq_true_eq] at hr
          rcases hr with ((((((h | h) | h) | h) | h) | h) | h) <;> subst h <;> decide
        have h2 : is_variable r = false := by
          simp only [is_binary, Bool.or_eq_true, decide_eq_true_eq] at hr
          rcases hr with ((((((h | h) | h) | h) | h) | h) | h) <;> subst h <;> decide
        simp [Formula.operators, h1, h2, hx]
      have hopsb : b.operators ⊆ ({"~", "&", "|", "->", "T", "F"} : Finset String) := by
        intro x hx
        apply hops
        have h1 : is_constant r = false := by
          simp only [is_binary, Bool.or_eq_true, decide_eq_true_eq] at hr
          rcases hr with ((((((h | h) | h) | h) | h) | h) | h) <;> subst h <;> decide
        have h2 : is_variable r = false := by
          simp only [is_binary, Bool.or_eq_true, decide_eq_true_eq] at hr
          rcases hr with ((((((h | h) | h) | h) | h) | h) | h) <;> subst h <;> decide
        simp [Formula.operators, h1, h2, hx]
      have hr3 : r = "&" ∨ r = "|" ∨ r = "->" := by
        simp only [is_binary, Bool.or_eq_true, decide_eq_true_eq] at hr
        rcases hr with ((((((h | h) | h) | h) | h) | h) | h) <;> subst h <;>
          first
            | exact Or.inl rfl
            | exact Or.inr (Or.inl rfl)
            | exact Or.inr (Or.inr rfl)
            | (exact absurd hrmem (by decide))
      have hrlen : 1 ≤ r.data.length := by
        rcases hr3 with h | h | h <;> subst h <;> decide
      cases fuel with
      | zero => omega
      | succ fuel =>
          have hla : a.polishL.length < fuel := by
            simp only [Formula.polishL, List.length_append] at hfuel
            omega
          have hlb : b.polishL.length < fuel := by
            simp only [Formula.polishL, List.length_append] at hfuel
            omega
          have hndb : noDigitHead (b.polishL ++ rest) := polishL_headNotDigit hwb rest
          have ha := iha hwa hopsa fuel (b.polishL ++ rest) hla hndb
          have hb := ihb hwb hopsb fuel rest hlb hrest
          rcases hr3 with h | h | h <;> subst h <;>
          · simp only [Formula.polishL, List.append_assoc, List.cons_append,
              List.singleton_append]
            simp [parsePolishCore, ha, hb]

/-- C8.  For every well-formed formula over the operators
`~`, `&`, `|`, `->` only, parsing the Polish representation returns the
formula itself. -/
theorem parse_polish_polish (f : Formula) (hwf : f.wf = true)
    (hops : f.operators ⊆ ({"~", "&", "|", "->"} : Finset String)) :
    Formula.parse_polish f.polish = some f := by
  have hops6 : f.operators ⊆ ({"~", "&", "|", "->", "T", "F"} : Finset String) :=
    hops.trans (by decide)
  unfold Formula.parse_polish Formula.polish
  have hdata : (⟨f.polishL⟩ : String).data = f.polishL := rfl
  rw [hdata, if_neg (polishL_ne_nil hwf)]
  have h := parsePolishCore_polishL hwf hops6 (f.polishL.length + 1) [] (by omega)
    (by simp [noDigitHead])
  rw [List.append_nil] at h
  rw [h]

/-- Witness for C8 at a concrete formula using all four supported
symbols. -/
theorem parse_polish_polish_witness :
    Formula.parse_polish
        (Formula.binary "->" (.leaf "p")
          (.binary "&" (.leaf "q") (.unary "~" (.binary "|" (.leaf "r") (.leaf "p"))))).polish =
      some (Formula.binary "->" (.leaf "p")
        (.binary "&" (.leaf "q") (.unary "~" (.binary "|" (.leaf "r") (.leaf "p"))))) :=
  parse_polish_polish _ (by decide) (by decide)

lemma takeWhile_name_is_variable {c : Char} (cs : List Char)
    (h1 : 'p' ≤ c) (h2 : c ≤ 'z') :
    is_variable ⟨c :: cs.takeWhile Char.isDigit⟩ = true := by
  have hall : (cs.takeWhile Char.isDigit).all Char.isDigit = true := by
    rw [List.all_eq_true]
    intro x hx
    exact List.mem_takeWhile_imp hx
  simp [is_variable, h1, h2, hall]

/-- Everything the Polish parser can produce uses only the symbols
`~`, `&`, `|`, `->`, `T`, `F`: the unsupported operators `+`, `<->`,
`-&`, `-|` never occur in a parse result. -/
lemma parsePolishCore_operators :
    ∀ fuel s f rem, parsePolishCore fuel s = some (f, rem) →
      f.operators ⊆ ({"~", "&", "|", "->", "T", "F"} : Finset String) := by
  intro fuel
  induction fuel with
  | zero => intro s f rem h; simp [parsePolishCore] at h
  | succ fuel ih =>
      intro s f rem h
      match s with
      | [] => simp [parsePolishCore] at h
      | c :: cs =>
          simp only [parsePolishCore] at h
          split_ifs at h with h1 h2 h3 h4 h5
          · simp only [Option.some.injEq, Prod.mk.injEq] at h
            obtain ⟨rfl, -⟩ := h
            rcases h1 with rfl | rfl <;> decide
          · simp only [Option.some.injEq, Prod.mk.injEq] at h
            obtain ⟨rfl, -⟩ := h
            have hv := takeWhile_name_is_variable cs h2.1 h2.2
            simp [Formula.operators, is_variable_not_constant hv, hv]
          · cases heq : parsePolishCore fuel cs with
            | none => simp [heq] at h
            | some pr =>
                obtain ⟨sub, rem1⟩ := pr
                simp only [heq, Option.some.injEq, Prod.mk.injEq] at h
                obtain ⟨rfl, -⟩ := h
                have hsub := ih cs sub rem1 heq
                simp only [Formula.operators]
                rw [if_neg (by decide), if_neg (by decide), Finset.insert_subset_iff]
                exact ⟨by decide, hsub⟩
          · cases heq : parsePolishCore fuel cs with
            | none => simp [heq] at h
            | some pr =>
                obtain ⟨left, rem1⟩ := pr
                cases heq2 : parsePolishCore fuel rem1 with
                | none => simp [heq, heq2] at h
                | some pr2 =>
                    obtain ⟨right, rem2⟩ := pr2
                    simp only [heq, heq2, Option.some.injEq, Prod.mk.injEq] at h
                    obtain ⟨rfl, -⟩ := h
                    have hl := ih cs left rem1 heq
                    have hrr := ih rem1 right rem2 heq2
                    rcases h4 with rfl | rfl <;>
                    · simp only [Formula.operators]
                      rw [if_neg (by decide), if_neg (by decide), Finset.insert_subset_iff]
                      exact ⟨by decide, Finset.union_subset hl hrr⟩
          · rcases cs with _ | ⟨c2, cs2⟩
            · simp at h
            · split at h
              · rename_i cs3 heqc
                injection heqc with hch hcs
                subst hch
                rw [← hcs] at h
                cases heq : parsePolishCore fuel cs2 with
                | none => simp [heq] at h
                | some pr =>
                    obtain ⟨left, rem1⟩ := pr
                    cases heq2 : parsePolishCore fuel rem1 with
                    | none => simp [heq, heq2] at h
                    | some pr2 =>
                        obtain ⟨right, rem2⟩ := pr2
                        simp only [heq, heq2, Option.some.injEq, Prod.mk.injEq] at h
                        obtain ⟨rfl, -⟩ := h
                        have hl := ih cs2 left rem1 heq
                        have hrr := ih rem1 right rem2 heq2
                        simp only [Formula.operators]
                        rw [if_neg (by decide), if_neg (by decide), Finset.insert_subset_iff]
                        exact ⟨by decide, Finset.union_subset hl hrr⟩
              · simp at h

/-- C7 counterexample: contrary to the claim, the Polish parser accepts
the one-character inputs `T` and `F`, returning the constant formulas
(syntax.py line 306 handles them explicitly). -/
theorem parse_polish_accepts_constants :
    Formula.parse_polish "T" = some (.leaf "T") ∧
      Formula.parse_polish "F" = some (.leaf "F") := by decide

/-- C7 amended: the Polish parser supports exactly the symbols
`~`, `&`, `|`, `->`, `T`, `F` — every successful parse produces a formula
over those symbols only, the constants `T` and `F` are accepted, and any
input beginning with one of the unsupported operators `+`, `<->`, `-&`,
`-|` is rejected. -/
theorem parse_polish_support :
    (∀ (s : String) (f : Formula), Formula.parse_polish s = some f →
        f.operators ⊆ ({"~", "&", "|", "->", "T", "F"} : Finset String))
    ∧ Formula.parse_polish "T" = some (.leaf "T")
    ∧ Formula.parse_polish "F" = some (.leaf "F")
    ∧ (∀ rest : List Char,
        Formula.parse_polish ⟨'+' :: rest⟩ = none
        ∧ Formula.parse_polish ⟨'<' :: rest⟩ = none
        ∧ Formula.parse_polish ⟨'-' :: '&' :: rest⟩ = none
        ∧ Formula.parse_polish ⟨'-' :: '|' :: rest⟩ = none) := by
  refine ⟨?_, by decide, by decide, ?_⟩
  · intro s f h
    unfold Formula.parse_polish at h
    split_ifs at h with hnil
    cases heq : parsePolishCore (s.length + 1) s.data with
    | none => simp [heq] at h
    | some pr =>
        obtain ⟨g, rem⟩ := pr
        cases rem with
        | nil =>
            have hf : g = f := by simpa [heq] using h
            subst hf
            exact parsePolishCore_operators _ _ _ _ heq
        | cons c t => simp [heq] at h
  · intro rest
    refine ⟨?_, ?_, ?_, ?_⟩ <;> simp [Formula.parse_polish, parsePolishCore]

/-- Witness for the amended C7: a concrete successful parse obeys the
support bound. -/
theorem parse_polish_support_witness :
    (Formula.binary "&" (.leaf "p") (.leaf "q")).operators ⊆
      ({"~", "&", "|", "->", "T", "F"} : Finset String) :=
  parse_polish_support.1 "&pq" _ (by decide)

/-- Lookup in a variable-substitution map, mirroring Python dictionary
access in `substitute_variables`. -/
def substLookup : List (String × Formula) → String → Option Formula
  | [], _ => none
  | (k, φ) :: rest, v => if k = v then some φ else substLookup rest v

/-- Modelled from the spec: the body of `Formula.substitute_variables` is
absent from the source (the Task 3.3 stub contains only the docstring and
the key assertions), so this definition follows spec section 4.3: replace
every Variable leaf whose name is a key of the map with the map's formula
for that key, in a single structural pass — occurrences introduced by a
replacement are never substituted again. -/
def Formula.substitute_variables : Formula → List (String × Formula) → Formula
  | .leaf r, m =>
      if is_variable r then
        match substLookup m r with
        | some φ => φ
        | none => .leaf r
      else .leaf r
  | .unary op a, m => .unary op (a.substitute_variables m)
  | .binary op a b, m =>
      .binary op (a.substitute_variables m) (b.substitute_variables m)

/-- C2.  Substituting `{p ↦ (q&r)}` into `(p|q)` yields `((q&r)|q)`: the
`q` introduced by the replacement is not substituted further, only
variable occurrences of the original formula are replaced.  The second
conjunct checks the docstring example `((p->p)|r)` with
`{p ↦ (q&r), r ↦ p}`, whose result keeps the introduced `r` and `p`
untouched. -/
theorem substitute_variables_non_recapture :
    (Formula.parse "(q&r)" = some (Formula.binary "&" (.leaf "q") (.leaf "r")))
    ∧ ((Formula.parse "(p|q)").map
        (fun A => A.substitute_variables
          [("p", Formula.binary "&" (.leaf "q") (.leaf "r"))]) =
        some (Formula.binary "|" (Formula.binary "&" (.leaf "q") (.leaf "r")) (.leaf "q")))
    ∧ ((Formula.parse "((p->p)|r)").map
        (fun A => A.substitute_variables
          [("p", Formula.binary "&" (.leaf "q") (.leaf "r")), ("r", Formula.leaf "p")]) =
        some (Formula.binary "|"
          (Formula.binary "->" (Formula.binary "&" (.leaf "q") (.leaf "r"))
            (Formula.binary "&" (.leaf "q") (.leaf "r")))
          (.leaf "p"))) := by decide

/-- Modelled from the spec: `InferenceRule` lives in
`propositions/proofs.py`, which is not among the sources; per spec
section 3 it is an ordered sequence of assumption formulas plus one
conclusion formula, consumed opaquely. -/
structure InferenceRule where
  assumptions : List Formula
  conclusion : Formula
deriving DecidableEq

/-- Modelled from the spec: the body of `evaluate_inference` is absent
from the source (the Task 4.2 stub contains only the docstring and the
`is_model` assertion), so this definition follows spec section 4.4: "the
rule holds in a model unless every assumption evaluates true and the
conclusion evaluates false". -/
def evaluate_inference (rule : InferenceRule) (model : Model) : Bool :=
  !((rule.assumptions.all fun a => (evaluate a model).getD false) &&
    !((evaluate rule.conclusion model).getD false))

/-- C3.  `evaluate_inference` returns a Boolean that is `false` exactly
when every assumption evaluates to true and the conclusion evaluates to
false in the model, and `true` in every other case. -/
theorem evaluate_inference_material_implication (rule : InferenceRule) (m : Model)
    (_hm : is_model m = true)
    (hwa : ∀ φ ∈ rule.assumptions, φ.wf = true)
    (hwc : rule.conclusion.wf = true)
    (hda : ∀ φ ∈ rule.assumptions, ∀ v ∈ φ.variables, v ∈ modelKeys m)
    (hdc : ∀ v ∈ rule.conclusion.variables, v ∈ modelKeys m) :
    evaluate_inference rule m = false ↔
      ((∀ φ ∈ rule.assumptions, evaluate φ m = some true) ∧
        evaluate rule.conclusion m = some false) := by
  obtain ⟨bc, hbc⟩ := evaluate_isSome hwc hdc
  have key : ∀ a ∈ rule.assumptions,
      (((evaluate a m).getD false) = true ↔ evaluate a m = some true) := by
    intro a ha
    obtain ⟨b, hb⟩ := evaluate_isSome (hwa a ha) (hda a ha)
    rw [hb]
    simp
  unfold evaluate_inference
  rw [hbc]
  simp only [Option.getD_some]
  constructor
  · intro h
    cases hall : (rule.assumptions.all fun a => (evaluate a m).getD false) with
    | false => rw [hall] at h; simp at h
    | true =>
        cases hbcv : bc with
        | true => rw [hall, hbcv] at h; simp at h
        | false =>
            subst hbcv
            refine ⟨?_, rfl⟩
            intro a ha
            have := List.all_eq_true.mp hall a ha
            exact (key a ha).mp (by simpa using this)
  · rintro ⟨h1, h2⟩
    have hbcf : bc = false := by simpa using h2
    have hX : (rule.assumptions.all fun a => (evaluate a m).getD false) = true := by
      rw [List.all_eq_true]
      intro a ha
      simpa using (key a ha).mpr (h1 a ha)
    rw [hX, hbcf]
    rfl

/-- Witness for C3 at the docstring example: modus-ponens-shaped rule
`p ⊢ q` fails exactly in the model where `p` is true and `q` false. -/
theorem evaluate_inference_witness :
    evaluate_inference ⟨[.leaf "p"], .leaf "q"⟩ [("p", true), ("q", false)] = false :=
  (evaluate_inference_material_implication ⟨[.leaf "p"], .leaf "q"⟩
    [("p", true), ("q", false)] (by decide) (by decide) (by decide) (by decide)
    (by decide)).mpr (by decide)

/-- Source `to_not_and_or` (operators.py): eliminate constants and the
operators beyond `~`, `&`, `|` by the identities `T ↦ (p|~p)`,
`F ↦ (p&~p)`, `A->B ↦ (~A|B)`, xor/iff via their disjunctive forms,
`A-&B ↦ ~(A&B)`, `A-|B ↦ ~(A|B)`.  The fall-through branches (a leaf that
is neither variable nor constant, a unary or binary node reached with an
unrecognized root) return the rebuilt node; in Python such nodes are
unconstructible or raise, so they matter only outside `wf`. -/
def to_not_and_or : Formula → Formula
  | .leaf r =>
      if is_variable r then .leaf r
      else if r = "T" then .binary "|" (.leaf "p") (.unary "~" (.leaf "p"))
      else if r = "F" then .binary "&" (.leaf "p") (.unary "~" (.leaf "p"))
      else .leaf r
  | .unary _ a => .unary "~" (to_not_and_or a)
  | .binary r a b =>
      let A := to_not_and_or a
      let B := to_not_and_or b
      if r = "&" then .binary "&" A B
      else if r = "|" then .binary "|" A B
      else if r = "->" then .binary "|" (.unary "~" A) B
      else if r = "+" then
        .binary "|" (.binary "&" A (.unary "~" B)) (.binary "&" (.unary "~" A) B)
      else if r = "<->" then
        .binary "|" (.binary "&" A B) (.binary "&" (.unary "~" A) (.unary "~" B))
      else if r = "-&" then .unary "~" (.binary "&" A B)
      else if r = "-|" then .unary "~" (.binary "|" A B)
      else .binary r A B

lemma evalT_to_not_and_or (σ : String → Bool) {f : Formula} (hwf : f.wf = true) :
    evalT (to_not_and_or f) σ = evalT f σ := by
  induction f with
  | leaf r =>
      simp only [Formula.wf, Bool.or_eq_true] at hwf
      rcases hwf with hv | hc
      · simp [to_not_and_or, hv]
      · simp only [is_constant, Bool.or_eq_true, decide_eq_true_eq] at hc
        rcases hc with hc | hc <;> subst hc <;> simp [to_not_and_or, evalT]
  | unary r a ih =>
      simp only [Formula.wf, Bool.and_eq_true] at hwf
      obtain ⟨hr, hwa⟩ := hwf
      simp only [is_unary, decide_eq_true_eq] at hr; subst hr
      simp [to_not_and_or, evalT, ih hwa]
  | binary r a b iha ihb =>
      simp only [Formula.wf, Bool.and_eq_true] at hwf
      obtain ⟨⟨hr, hwa⟩, hwb⟩ := hwf
      simp only [is_binary, Bool.or_eq_true, decide_eq_true_eq] at hr
      rcases hr with ((((((h | h) | h) | h) | h) | h) | h) <;> subst h <;>
        · simp [to_not_and_or, evalT, iha hwa, ihb hwb]
          all_goals (cases evalT a σ <;> cases evalT b σ <;> simp)

lemma wf_to_not_and_or {f : Formula} (hwf : f.wf = true) :
    (to_not_and_or f).wf = true := by
  induction f with
  | leaf r =>
      simp only [Formula.wf, Bool.or_eq_true] at hwf
      rcases hwf with hv | hc
      · simp [to_not_and_or, hv, Formula.wf]
      · simp only [is_constant, Bool.or_eq_true, decide_eq_true_eq] at hc
        rcases hc with hc | hc <;> subst hc <;> decide
  | unary r a ih =>
      simp only [Formula.wf, Bool.and_eq_true] at hwf
      obtain ⟨hr, hwa⟩ := hwf
      simp only [is_unary, decide_eq_true_eq] at hr; subst hr
      simp [to_not_and_or, Formula.wf, is_unary, ih hwa]
  | binary r a b iha ihb =>
      simp only [Formula.wf, Bool.and_eq_true] at hwf
      obtain ⟨⟨hr, hwa⟩, hwb⟩ := hwf
      simp only [is_binary, Bool.or_eq_true, decide_eq_true_eq] at hr
      rcases hr with ((((((h | h) | h) | h) | h) | h) | h) <;> subst h <;>
        simp [to_not_and_or, Formula.wf, is_unary, is_binary, iha hwa, ihb hwb]

lemma operators_to_not_and_or {f : Formula} (hwf : f.wf = true) :
    (to_not_and_or f).operators ⊆ ({"~", "&", "|"} : Finset String) := by
  induction f with
  | leaf r =>
      simp only [Formula.wf, Bool.or_eq_true] at hwf
      rcases hwf with hv | hc
      · simp [to_not_and_or, hv, Formula.operators, is_variable_not_constant hv]
      · simp only [is_constant, Bool.or_eq_true, decide_eq_true_eq] at hc
        rcases hc with hc | hc <;> subst hc <;> decide
  | unary r a ih =>
      simp only [Formula.wf, Bool.and_eq_true] at hwf
      obtain ⟨hr, hwa⟩ := hwf
      simp only [is_unary, decide_eq_true_eq] at hr; subst hr
      simp only [to_not_and_or, Formula.operators]
      rw [if_neg (by decide), if_neg (by decide), Finset.insert_subset_iff]
      exact ⟨by decide, ih hwa⟩
  | binary r a b iha ihb =>
      simp only [Formula.wf, Bool.and_eq_true] at hwf
      obtain ⟨⟨hr, hwa⟩, hwb⟩ := hwf
      have ha := iha hwa
      have hb := ihb hwb
      simp only [is_binary, Bool.or_eq_true, decide_eq_true_eq] at hr
      rcases hr with ((((((h | h) | h) | h) | h) | h) | h) <;> subst h <;>
        · simp only [to_not_and_or, Formula.operators]
          simp [Finset.insert_subset_iff, Finset.union_subset_iff, ha, hb,
            is_constant, is_variable]

/-- `to_not_and_or` is idempotent: its outputs are fixed points. -/
lemma to_not_and_or_idem (f : Formula) :
    to_not_and_or (to_not_and_or f) = to_not_and_or f := by
  induction f with
  | leaf r =>
      by_cases hv : is_variable r
      · simp [to_not_and_or, hv]
      · by_cases hT : r = "T"
        · subst hT; decide
        · by_cases hF : r = "F"
          · subst hF; decide
          · simp [to_not_and_or, hv, hT, hF]
  | unary r a ih => simp [to_not_and_or, ih]
  | binary r a b iha ihb =>
      simp only [to_not_and_or]
      split_ifs <;> simp_all [to_not_and_or]

/-- Subterm extraction from a unary fixed point of `to_not_and_or`. -/
lemma nao_fixed_unary {r : String} {a : Formula}
    (h : to_not_and_or (.unary r a) = .unary r a) :
    to_not_and_or a = a ∧ r = "~" := by
  simp only [to_not_and_or, Formula.unary.injEq] at h
  exact ⟨h.2, h.1.symm⟩

/-- Subterm extraction from a binary fixed point of `to_not_and_or`: the
children are fixed and the root is not one of the rewritten operators. -/
lemma nao_fixed_binary {r : String} {a b : Formula}
    (h : to_not_and_or (.binary r a b) = .binary r a b) :
    to_not_and_or a = a ∧ to_not_and_or b = b ∧
      r ≠ "->" ∧ r ≠ "+" ∧ r ≠ "<->" ∧ r ≠ "-&" ∧ r ≠ "-|" := by
  simp only [to_not_and_or] at h
  split_ifs at h <;> simp_all [Formula.binary.injEq, Formula.unary.injEq]

/-- The recursion body of source `to_not_and` (operators.py), as a
structural pass over the `{~,&,|}`-form tree: leaves pass through, `~`
recurses, `&` recurses, `|` is replaced via De Morgan
`A|B ↦ ~(~A & ~B)`, anything else is rebuilt. -/
def to_not_and_go : Formula → Formula
  | .leaf r => .leaf r
  | .unary _ a => .unary "~" (to_not_and_go a)
  | .binary r a b =>
      let A := to_not_and_go a
      let B := to_not_and_go b
      if r = "&" then .binary "&" A B
      else if r = "|" then .unary "~" (.binary "&" (.unary "~" A) (.unary "~" B))
      else .binary r A B

/-- Source `to_not_and` (operators.py): computes
`f = to_not_and_or(formula)` and then recurses on `f`'s subtrees by
calling `to_not_and` itself.  Those subtrees are fixed points of
`to_not_and_or` (`to_not_and_or_idem`), so the recursion coincides with
the structural pass `to_not_and_go`; theorem `to_not_and_eq` below
proves that this definition satisfies the source's recursion equation
verbatim. -/
def to_not_and (f : Formula) : Formula := to_not_and_go (to_not_and_or f)

/-- The source's recursion equation for `to_not_and`. -/
theorem to_not_and_eq (f : Formula) :
    to_not_and f =
      match to_not_and_or f with
      | .leaf r => .leaf r
      | .unary _ a => .unary "~" (to_not_and a)
      | .binary r a b =>
          if r = "&" then .binary "&" (to_not_and a) (to_not_and b)
          else if r = "|" then
            .unary "~" (.binary "&" (.unary "~" (to_not_and a)) (.unary "~" (to_not_and b)))
          else .binary r (to_not_and a) (to_not_and b) := by
  have hidem := to_not_and_or_idem f
  unfold to_not_and
  cases hnao : to_not_and_or f with
  | leaf r => simp [to_not_and_go]
  | unary r a =>
      rw [hnao] at hidem
      obtain ⟨hfix, -⟩ := nao_fixed_unary hidem
      simp [to_not_and_go, to_not_and, hfix]
  | binary r a b =>
      rw [hnao] at hidem
      obtain ⟨hfa, hfb, -⟩ := nao_fixed_binary hidem
      simp [to_not_and_go, to_not_and, hfa, hfb]

lemma evalT_to_not_and_go (σ : String → Bool) (y : Formula) :
    evalT (to_not_and_go y) σ = evalT y σ := by
  induction y with
  | leaf r => rfl
  | unary r a ih => simp [to_not_and_go, evalT, ih]
  | binary r a b iha ihb =>
      simp only [to_not_and_go]
      split_ifs with h1 h2 <;> subst_vars <;> simp [evalT, iha, ihb]

lemma wf_to_not_and_go {y : Formula} (hwf : y.wf = true) :
    (to_not_and_go y).wf = true := by
  induction y with
  | leaf r => exact hwf
  | unary r a ih =>
      simp only [Formula.wf, Bool.and_eq_true] at hwf
      simp [to_not_and_go, Formula.wf, is_unary, ih hwf.2]
  | binary r a b iha ihb =>
      simp only [Formula.wf, Bool.and_eq_true] at hwf
      obtain ⟨⟨hr, hwa⟩, hwb⟩ := hwf
      simp only [to_not_and_go]
      split_ifs with h1 h2 <;>
        simp [Formula.wf, is_unary, is_binary, iha hwa, ihb hwb]
      simpa [is_binary] using hr

lemma mem_operators_unary {r : String} {a : Formula} (hrc : is_constant r = false)
    (hrv : is_variable r = false) :
    (Formula.unary r a).operators = insert r a.operators := by
  simp [Formula.operators, hrc, hrv]

lemma mem_operators_binary {r : String} {a b : Formula} (hrc : is_constant r = false)
    (hrv : is_variable r = false) :
    (Formula.binary r a b).operators = insert r (a.operators ∪ b.operators) := by
  simp [Formula.operators, hrc, hrv]

lemma is_binary_not_constant {r : String} (h : is_binary r = true) :
    is_constant r = false := by
  simp only [is_binary, Bool.or_eq_true, decide_eq_true_eq] at h
  rcases h with ((((((h | h) | h) | h) | h) | h) | h) <;> subst h <;> decide

lemma is_binary_not_variable {r : String} (h : is_binary r = true) :
    is_variable r = false := by
  simp only [is_binary, Bool.or_eq_true, decide_eq_true_eq] at h
  rcases h with ((((((h | h) | h) | h) | h) | h) | h) <;> subst h <;> decide

lemma operators_to_not_and_go {y : Formula} (hwf : y.wf = true)
    (hops : y.operators ⊆ ({"~", "&", "|"} : Finset String)) :
    (to_not_and_go y).operators ⊆ ({"~", "&"} : Finset String) := by
  induction y with
  | leaf r =>
      simp only [Formula.wf, Bool.or_eq_true] at hwf
      rcases hwf with hv | hc
      · simp [to_not_and_go, Formula.operators, is_variable_not_constant hv, hv]
      · exfalso
        have : r ∈ ({"~", "&", "|"} : Finset String) := by
          apply hops
          simp [Formula.operators, hc]
        simp only [is_constant, Bool.or_eq_true, decide_eq_true_eq] at hc
        rcases hc with hc | hc <;> subst hc <;> revert this <;> decide
  | unary r a ih =>
      simp only [Formula.wf, Bool.and_eq_true] at hwf
      obtain ⟨hr, hwa⟩ := hwf
      simp only [is_unary, decide_eq_true_eq] at hr; subst hr
      have hopsa : a.operators ⊆ ({"~", "&", "|"} : Finset String) := by
        intro x hx
        apply hops
        rw [mem_operators_unary (by decide) (by decide)]
        exact Finset.mem_insert_of_mem hx
      simp only [to_not_and_go]
      rw [mem_operators_unary (by decide) (by decide), Finset.insert_subset_iff]
      exact ⟨by decide, ih hwa hopsa⟩
  | binary r a b iha ihb =>
      simp only [Formula.wf, Bool.and_eq_true] at hwf
      obtain ⟨⟨hr, hwa⟩, hwb⟩ := hwf
      have hrc := is_binary_not_constant hr
      have hrv := is_binary_not_variable hr
      have hopsa : a.operators ⊆ ({"~", "&", "|"} : Finset String) := by
        intro x hx
        apply hops
        rw [mem_operators_binary hrc hrv]
        exact Finset.mem_insert_of_mem (Finset.mem_union_left _ hx)
      have hopsb : b.operators ⊆ ({"~", "&", "|"} : Finset String) := by
        intro x hx
        apply hops
        rw [mem_operators_binary hrc hrv]
        exact Finset.mem_insert_of_mem (Finset.mem_union_right _ hx)
      have ha := iha hwa hopsa
      have hb := ihb hwb hopsb
      have hrmem : r ∈ ({"~", "&", "|"} : Finset String) := by
        apply hops
        rw [mem_operators_binary hrc hrv]
        exact Finset.mem_insert_self _ _
      have hr2 : r = "&" ∨ r = "|" := by
        simp only [is_binary, Bool.or_eq_true, decide_eq_true_eq] at hr
        rcases hr with ((((((h | h) | h) | h) | h) | h) | h) <;> subst h <;>
          first
            | exact Or.inl rfl
            | exact Or.inr rfl
            | (exact absurd hrmem (by decide))
      rcases hr2 with h | h <;> subst h <;>
        · simp only [to_not_and_go]
          simp [mem_operators_unary, mem_operators_binary,
            Finset.insert_subset_iff, Finset.union_subset_iff, ha, hb,
            is_constant, is_variable]

lemma evalT_to_not_and (σ : String → Bool) {f : Formula} (hwf : f.wf = true) :
    evalT (to_not_and f) σ = evalT f σ :=
  (evalT_to_not_and_go σ (to_not_and_or f)).trans (evalT_to_not_and_or σ hwf)

lemma wf_to_not_and {f : Formula} (hwf : f.wf = true) :
    (to_not_and f).wf = true :=
  wf_to_not_and_go (wf_to_not_and_or hwf)

lemma operators_to_not_and {f : Formula} (hwf : f.wf = true) :
    (to_not_and f).operators ⊆ ({"~", "&"} : Finset String) :=
  operators_to_not_and_go (wf_to_not_and_or hwf) (operators_to_not_and_or hwf)

/-- `to_not_and_go` is idempotent. -/
lemma to_not_and_go_idem (y : Formula) :
    to_not_and_go (to_not_and_go y) = to_not_and_go y := by
  induction y with
  | leaf r => rfl
  | unary r a ih => simp [to_not_and_go, ih]
  | binary r a b iha ihb =>
      simp only [to_not_and_go]
      split_ifs <;> simp_all [to_not_and_go]

lemma go_fixed_unary {r : String} {a : Formula}
    (h : to_not_and_go (.unary r a) = .unary r a) :
    to_not_and_go a = a := by
  simp only [to_not_and_go, Formula.unary.injEq] at h
  exact h.2

lemma go_fixed_binary {r : String} {a b : Formula}
    (h : to_not_and_go (.binary r a b) = .binary r a b) :
    to_not_and_go a = a ∧ to_not_and_go b = b ∧ r ≠ "|" := by
  simp only [to_not_and_go] at h
  split_ifs at h <;> simp_all [Formula.binary.injEq, Formula.unary.injEq]

/-- `to_not_and_go` preserves being a fixed point of `to_not_and_or`. -/
lemma nao_fixed_to_not_and_go {y : Formula} (h : to_not_and_or y = y) :
    to_not_and_or (to_not_and_go y) = to_not_and_go y := by
  induction y with
  | leaf r =>
      simpa [to_not_and_go] using h
  | unary r a ih =>
      obtain ⟨hfa, hr⟩ := nao_fixed_unary h
      subst hr
      simp [to_not_and_go, to_not_and_or, ih hfa]
  | binary r a b iha ihb =>
      obtain ⟨hfa, hfb, hd1, hd2, hd3, hd4, hd5⟩ := nao_fixed_binary h
      have ha := iha hfa
      have hb := ihb hfb
      simp only [to_not_and_go]
      split_ifs with h1 h2
      · subst h1; simp [to_not_and_or, ha, hb]
      · subst h2; simp [to_not_and_or, ha, hb]
      · simp [to_not_and_or, ha, hb, h1, h2, hd1, hd2, hd3, hd4, hd5]

/-- Fixed points of `to_not_and_or` are preserved by `to_not_and`. -/
lemma nao_fixed_to_not_and (f : Formula) :
    to_not_and_or (to_not_and f) = to_not_and f :=
  nao_fixed_to_not_and_go (to_not_and_or_idem f)

/-- `to_not_and` is idempotent. -/
lemma to_not_and_idem (f : Formula) : to_not_and (to_not_and f) = to_not_and f := by
  unfold to_not_and
  rw [show to_not_and_or (to_not_and_go (to_not_and_or f)) =
        to_not_and_go (to_not_and_or f) from
      nao_fixed_to_not_and_go (to_not_and_or_idem f)]
  exact to_not_and_go_idem (to_not_and_or f)

/-- Subterm extraction for `to_not_and` outputs, unary case. -/
lemma tna_fixed_unary {f : Formula} {r : String} {a : Formula}
    (h : to_not_and f = .unary r a) : to_not_and a = a := by
  have hnao : to_not_and_or (.unary r a) = .unary r a := by
    rw [← h]; exact nao_fixed_to_not_and f
  have hgo : to_not_and_go (.unary r a) = .unary r a := by
    rw [← h]
    have := to_not_and_idem f
    rw [h] at this
    calc to_not_and_go (to_not_and f)
        = to_not_and_go (to_not_and_or (to_not_and f)) := by
          rw [nao_fixed_to_not_and f]
      _ = to_not_and (to_not_and f) := rfl
      _ = to_not_and f := to_not_and_idem f
  obtain ⟨hfa, -⟩ := nao_fixed_unary hnao
  have hga := go_fixed_unary hgo
  unfold to_not_and
  rw [hfa, hga]

/-- Subterm extraction for `to_not_and` outputs, binary case. -/
lemma tna_fixed_binary {f : Formula} {r : String} {a b : Formula}
    (h : to_not_and f = .binary r a b) : to_not_and a = a ∧ to_not_and b = b := by
  have hnao : to_not_and_or (.binary r a b) = .binary r a b := by
    rw [← h]; exact nao_fixed_to_not_and f
  have hgo : to_not_and_go (.binary r a b) = .binary r a b := by
    rw [← h]
    calc to_not_and_go (to_not_and f)
        = to_not_and_go (to_not_and_or (to_not_and f)) := by
          rw [nao_fixed_to_not_and f]
      _ = to_not_and (to_not_and f) := rfl
      _ = to_not_and f := to_not_and_idem f
  obtain ⟨hfa, hfb, -⟩ := nao_fixed_binary hnao
  obtain ⟨hga, hgb, -⟩ := go_fixed_binary hgo
  constructor
  · unfold to_not_and; rw [hfa, hga]
  · unfold to_not_and; rw [hfb, hgb]

/-- The recursion body of source `to_nand` (operators.py), as a
structural pass over the `{~,&}`-form tree: `~A ↦ (A -& A)`,
`A&B ↦ ((A -& B) -& (A -& B))`, `A|B ↦ ((A -& A) -& (B -& B))` (the `|`
case is inherited from the source even though `to_not_and` output never
contains `|`), anything else is rebuilt. -/
def to_nand_go : Formula → Formula
  | .leaf r => .leaf r
  | .unary _ a =>
      let A := to_nand_go a
      .binary "-&" A A
  | .binary r a b =>
      let A := to_nand_go a
      let B := to_nand_go b
      if r = "&" then .binary "-&" (.binary "-&" A B) (.binary "-&" A B)
      else if r = "|" then .binary "-&" (.binary "-&" A A) (.binary "-&" B B)
      else .binary r A B

/-- Source `to_nand` (operators.py): computes `f = to_not_and(formula)`
and recurses on `f`'s subtrees by calling `to_nand` itself; those
subtrees are fixed points of `to_not_and` (`tna_fixed_unary`,
`tna_fixed_binary`), so the recursion coincides with the structural pass
`to_nand_go` — theorem `to_nand_eq` below proves the source's recursion
equation verbatim. -/
def to_nand (f : Formula) : Formula := to_nand_go (to_not_and f)

/-- The source's recursion equation for `to_nand`. -/
theorem to_nand_eq (f : Formula) :
    to_nand f =
      match to_not_and f with
      | .leaf r => .leaf r
      | .unary _ a => .binary "-&" (to_nand a) (to_nand a)
      | .binary r a b =>
          if r = "&" then
            .binary "-&" (.binary "-&" (to_nand a) (to_nand b))
              (.binary "-&" (to_nand a) (to_nand b))
          else if r = "|" then
            .binary "-&" (.binary "-&" (to_nand a) (to_nand a))
              (.binary "-&" (to_nand b) (to_nand b))
          else .binary r (to_nand a) (to_nand b) := by
  unfold to_nand
  cases htna : to_not_and f with
  | leaf r => simp [to_nand_go]
  | unary r a =>
      have hfix := tna_fixed_unary htna
      simp [to_nand_go, to_nand, hfix]
  | binary r a b =>
      obtain ⟨hfa, hfb⟩ := tna_fixed_binary htna
      simp [to_nand_go, to_nand, hfa, hfb]

lemma evalT_to_nand_go (σ : String → Bool) (y : Formula) :
    evalT (to_nand_go y) σ = evalT y σ := by
  induction y with
  | leaf r => rfl
  | unary r a ih =>
      simp [to_nand_go, evalT, ih]
  | binary r a b iha ihb =>
      simp only [to_nand_go]
      split_ifs with h1 h2 <;> subst_vars <;> simp [evalT, iha, ihb]

lemma evalT_to_nand (σ : String → Bool) {f : Formula} (hwf : f.wf = true) :
    evalT (to_nand f) σ = evalT f σ :=
  (evalT_to_nand_go σ (to_not_and f)).trans (evalT_to_not_and σ hwf)

lemma wf_to_nand_go {y : Formula} (hwf : y.wf = true) :
    (to_nand_go y).wf = true := by
  induction y with
  | leaf r => exact hwf
  | unary r a ih =>
      simp only [Formula.wf, Bool.and_eq_true] at hwf
      simp [to_nand_go, Formula.wf, is_binary, ih hwf.2]
  | binary r a b iha ihb =>
      simp only [Formula.wf, Bool.and_eq_true] at hwf
      obtain ⟨⟨hr, hwa⟩, hwb⟩ := hwf
      simp only [to_nand_go]
      split_ifs with h1 h2 <;>
        simp [Formula.wf, is_binary, iha hwa, ihb hwb]
      simpa [is_binary] using hr

lemma wf_to_nand {f : Formula} (hwf : f.wf = true) : (to_nand f).wf = true :=
  wf_to_nand_go (wf_to_not_and hwf)

lemma operators_to_nand_go {y : Formula} (hwf : y.wf = true)
    (hops : y.operators ⊆ ({"~", "&"} : Finset String)) :
    (to_nand_go y).operators ⊆ ({"-&"} : Finset String) := by
  induction y with
  | leaf r =>
      simp only [Formula.wf, Bool.or_eq_true] at hwf
      rcases hwf with hv | hc
      · simp [to_nand_go, Formula.operators, is_variable_not_constant hv, hv]
      · exfalso
        have : r ∈ ({"~", "&"} : Finset String) := by
          apply hops
          simp [Formula.operators, hc]
        simp only [is_constant, Bool.or_eq_true, decide_eq_true_eq] at hc
        rcases hc with hc | hc <;> subst hc <;> revert this <;> decide
  | unary r a ih =>
      simp only [Formula.wf, Bool.and_eq_true] at hwf
      obtain ⟨hr, hwa⟩ := hwf
      simp only [is_unary, decide_eq_true_eq] at hr; subst hr
      have hopsa : a.operators ⊆ ({"~", "&"} : Finset String) := by
        intro x hx
        apply hops
        rw [mem_operators_unary (by decide) (by decide)]
        exact Finset.mem_insert_of_mem hx
      have ha := ih hwa hopsa
      simp only [to_nand_go]
      rw [mem_operators_binary (by decide) (by decide), Finset.union_self,
        Finset.insert_subset_iff]
      exact ⟨by decide, ha⟩
  | binary r a b iha ihb =>
      simp only [Formula.wf, Bool.and_eq_true] at hwf
      obtain ⟨⟨hr, hwa⟩, hwb⟩ := hwf
      have hrc := is_binary_not_constant hr
      have hrv := is_binary_not_variable hr
      have hopsa : a.operators ⊆ ({"~", "&"} : Finset String) := by
        intro x hx
        apply hops
        rw [mem_operators_binary hrc hrv]
        exact Finset.mem_insert_of_mem (Finset.mem_union_left _ hx)
      have hopsb : b.operators ⊆ ({"~", "&"} : Finset String) := by
        intro x hx
        apply hops
        rw [mem_operators_binary hrc hrv]
        exact Finset.mem_insert_of_mem (Finset.mem_union_right _ hx)
      have ha := iha hwa hopsa
      have hb := ihb hwb hopsb
      have hrmem : r ∈ ({"~", "&"} : Finset String) := by
        apply hops
        rw [mem_operators_binary hrc hrv]
        exact Finset.mem_insert_self _ _
      have hr2 : r = "&" := by
        simp only [is_binary, Bool.or_eq_true, decide_eq_true_eq] at hr
        rcases hr with ((((((h | h) | h) | h) | h) | h) | h) <;> subst h <;>
          first
            | rfl
            | (exact absurd hrmem (by decide))
      subst hr2
      simp only [to_nand_go]
      rw [if_pos trivial, mem_operators_binary (by decide) (by decide),
        Finset.union_self, mem_operators_binary (by decide) (by decide),
        Finset.insert_subset_iff, Finset.insert_subset_iff, Finset.union_subset_iff]
      exact ⟨by decide, by decide, ha, hb⟩

lemma operators_to_nand {f : Formula} (hwf : f.wf = true) :
    (to_nand f).operators ⊆ ({"-&"} : Finset String) :=
  operators_to_nand_go (wf_to_not_and hwf) (operators_to_not_and hwf)

/-- Source `to_implies_not` (operators.py): direct structural rewrite to
the `{->, ~}` basis (`T ↦ (p->p)`, `F ↦ ~(p->p)`, `A&B ↦ ~(A->~B)`,
`A|B ↦ (~A->B)`, iff via the double implication, xor as its negation,
nand/nor via the negated `&`/`|` mappings). -/
def to_implies_not : Formula → Formula
  | .leaf r =>
      if is_variable r then .leaf r
      else if r = "T" then .binary "->" (.leaf "p") (.leaf "p")
      else if r = "F" then .unary "~" (.binary "->" (.leaf "p") (.leaf "p"))
      else .leaf r
  | .unary _ a => .unary "~" (to_implies_not a)
  | .binary r a b =>
      let A := to_implies_not a
      let B := to_implies_not b
      if r = "&" then .unary "~" (.binary "->" A (.unary "~" B))
      else if r = "|" then .binary "->" (.unary "~" A) B
      else if r = "->" then .binary "->" A B
      else if r = "<->" then
        .unary "~" (.binary "->" (.binary "->" A B) (.unary "~" (.binary "->" B A)))
      else if r = "+" then
        .unary "~"
          (.unary "~" (.binary "->" (.binary "->" A B) (.unary "~" (.binary "->" B A))))
      else if r = "-&" then .binary "->" A (.unary "~" B)
      else if r = "-|" then .unary "~" (.binary "->" (.unary "~" A) B)
      else .binary r A B

/-- Source `to_implies_false` (operators.py): direct structural rewrite
to the `{->, F}` basis (`F ↦ F`, `T ↦ (F->F)`, `~A ↦ (A->F)`, the other
operators through their implication/falsum encodings). -/
def to_implies_false : Formula → Formula
  | .leaf r =>
      if is_variable r then .leaf r
      else if r = "F" then .leaf "F"
      else if r = "T" then .binary "->" (.leaf "F") (.leaf "F")
      else .leaf r
  | .unary _ a => .binary "->" (to_implies_false a) (.leaf "F")
  | .binary r a b =>
      let A := to_implies_false a
      let B := to_implies_false b
      if r = "&" then
        .binary "->" (.binary "->" A (.binary "->" B (.leaf "F"))) (.leaf "F")
      else if r = "|" then .binary "->" (.binary "->" A (.leaf "F")) B
      else if r = "->" then .binary "->" A B
      else if r = "<->" then
        .binary "->"
          (.binary "->" (.binary "->" A B)
            (.binary "->" (.binary "->" B A) (.leaf "F")))
          (.leaf "F")
      else if r = "+" then
        .binary "->"
          (.binary "->"
            (.binary "->" (.binary "->" A B)
              (.binary "->" (.binary "->" B A) (.leaf "F")))
            (.leaf "F"))
          (.leaf "F")
      else if r = "-&" then
        .binary "->"
          (.binary "->" (.binary "->" A (.binary "->" B (.leaf "F"))) (.leaf "F"))
          (.leaf "F")
      else if r = "-|" then
        .binary "->" (.binary "->" (.binary "->" A (.leaf "F")) B) (.leaf "F")
      else .binary r A B

lemma evalT_to_implies_not (σ : String → Bool) {f : Formula} (hwf : f.wf = true) :
    evalT (to_implies_not f) σ = evalT f σ := by
  induction f with
  | leaf r =>
      simp only [Formula.wf, Bool.or_eq_true] at hwf
      rcases hwf with hv | hc
      · simp [to_implies_not, hv]
      · simp only [is_constant, Bool.or_eq_true, decide_eq_true_eq] at hc
        rcases hc with hc | hc <;> subst hc <;> simp [to_implies_not, evalT]
  | unary r a ih =>
      simp only [Formula.wf, Bool.and_eq_true] at hwf
      obtain ⟨hr, hwa⟩ := hwf
      simp only [is_unary, decide_eq_true_eq] at hr; subst hr
      simp [to_implies_not, evalT, ih hwa]
  | binary r a b iha ihb =>
      simp only [Formula.wf, Bool.and_eq_true] at hwf
      obtain ⟨⟨hr, hwa⟩, hwb⟩ := hwf
      simp only [is_binary, Bool.or_eq_true, decide_eq_true_eq] at hr
      rcases hr with ((((((h | h) | h) | h) | h) | h) | h) <;> subst h <;>
        · simp [to_implies_not, evalT, iha hwa, ihb hwb]
          all_goals (cases evalT a σ <;> cases evalT b σ <;> simp)

lemma evalT_to_implies_false (σ : String → Bool) {f : Formula} (hwf : f.wf = true) :
    evalT (to_implies_false f) σ = evalT f σ := by
  induction f with
  | leaf r =>
      simp only [Formula.wf, Bool.or_eq_true] at hwf
      rcases hwf with hv | hc
      · simp [to_implies_false, hv]
      · simp only [is_constant, Bool.or_eq_true, decide_eq_true_eq] at hc
        rcases hc with hc | hc <;> subst hc <;> simp [to_implies_false, evalT]
  | unary r a ih =>
      simp only [Formula.wf, Bool.and_eq_true] at hwf
      obtain ⟨hr, hwa⟩ := hwf
      simp only [is_unary, decide_eq_true_eq] at hr; subst hr
      simp [to_implies_false, evalT, ih hwa]
  | binary r a b iha ihb =>
      simp only [Formula.wf, Bool.and_eq_true] at hwf
      obtain ⟨⟨hr, hwa⟩, hwb⟩ := hwf
      simp only [is_binary, Bool.or_eq_true, decide_eq_true_eq] at hr
      rcases hr with ((((((h | h) | h) | h) | h) | h) | h) <;> subst h <;>
        · simp [to_implies_false, evalT, iha hwa, ihb hwb]
          all_goals (cases evalT a σ <;> cases evalT b σ <;> simp)

lemma wf_to_implies_not {f : Formula} (hwf : f.wf = true) :
    (to_implies_not f).wf = true := by
  induction f with
  | leaf r =>
      simp only [Formula.wf, Bool.or_eq_true] at hwf
      rcases hwf with hv | hc
      · simp [to_implies_not, hv, Formula.wf]
      · simp only [is_constant, Bool.or_eq_true, decide_eq_true_eq] at hc
        rcases hc with hc | hc <;> subst hc <;> decide
  | unary r a ih =>
      simp only [Formula.wf, Bool.and_eq_true] at hwf
      obtain ⟨hr, hwa⟩ := hwf
      simp only [is_unary, decide_eq_true_eq] at hr; subst hr
      simp [to_implies_not, Formula.wf, is_unary, ih hwa]
  | binary r a b iha ihb =>
      simp only [Formula.wf, Bool.and_eq_true] at hwf
      obtain ⟨⟨hr, hwa⟩, hwb⟩ := hwf
      simp only [is_binary, Bool.or_eq_true, decide_eq_true_eq] at hr
      rcases hr with ((((((h | h) | h) | h) | h) | h) | h) <;> subst h <;>
        simp [to_implies_not, Formula.wf, is_unary, is_binary, iha hwa, ihb hwb]

lemma wf_to_implies_false {f : Formula} (hwf : f.wf = true) :
    (to_implies_false f).wf = true := by
  induction f with
  | leaf r =>
      simp only [Formula.wf, Bool.or_eq_true] at hwf
      rcases hwf with hv | hc
      · simp [to_implies_false, hv, Formula.wf]
      · simp only [is_constant, Bool.or_eq_true, decide_eq_true_eq] at hc
        rcases hc with hc | hc <;> subst hc <;> decide
  | unary r a ih =>
      simp only [Formula.wf, Bool.and_eq_true] at hwf
      obtain ⟨hr, hwa⟩ := hwf
      simp only [is_unary, decide_eq_true_eq] at hr; subst hr
      simp [to_implies_false, Formula.wf, is_binary, is_constant, ih hwa]
  | binary r a b iha ihb =>
      simp only [Formula.wf, Bool.and_eq_true] at hwf
      obtain ⟨⟨hr, hwa⟩, hwb⟩ := hwf
      simp only [is_binary, Bool.or_eq_true, decide_eq_true_eq] at hr
      rcases hr with ((((((h | h) | h) | h) | h) | h) | h) <;> subst h <;>
        simp [to_implies_false, Formula.wf, is_binary, is_constant, iha hwa, ihb hwb]

lemma operators_to_implies_not {f : Formula} (hwf : f.wf = true) :
    (to_implies_not f).operators ⊆ ({"->", "~"} : Finset String) := by
  induction f with
  | leaf r =>
      simp only [Formula.wf, Bool.or_eq_true] at hwf
      rcases hwf with hv | hc
      · simp [to_implies_not, hv, Formula.operators, is_variable_not_constant hv]
      · simp only [is_constant, Bool.or_eq_true, decide_eq_true_eq] at hc
        rcases hc with hc | hc <;> subst hc <;> decide
  | unary r a ih =>
      simp only [Formula.wf, Bool.and_eq_true] at hwf
      obtain ⟨hr, hwa⟩ := hwf
      simp only [is_unary, decide_eq_true_eq] at hr; subst hr
      simp only [to_implies_not]
      rw [mem_operators_unary (by decide) (by decide), Finset.insert_subset_iff]
      exact ⟨by decide, ih hwa⟩
  | binary r a b iha ihb =>
      simp only [Formula.wf, Bool.and_eq_true] at hwf
      obtain ⟨⟨hr, hwa⟩, hwb⟩ := hwf
      have ha := iha hwa
      have hb := ihb hwb
      simp only [is_binary, Bool.or_eq_true, decide_eq_true_eq] at hr
      rcases hr with ((((((h | h) | h) | h) | h) | h) | h) <;> subst h <;>
        · simp only [to_implies_not]
          simp [mem_operators_unary, mem_operators_binary,
            Finset.insert_subset_iff, Finset.union_subset_iff, ha, hb,
            is_constant, is_variable]

lemma operators_to_implies_false {f : Formula} (hwf : f.wf = true) :
    (to_implies_false f).operators ⊆ ({"->", "F"} : Finset String) := by
  induction f with
  | leaf r =>
      simp only [Formula.wf, Bool.or_eq_true] at hwf
      rcases hwf with hv | hc
      · simp [to_implies_false, hv, Formula.operators, is_variable_not_constant hv]
      · simp only [is_constant, Bool.or_eq_true, decide_eq_true_eq] at hc
        rcases hc with hc | hc <;> subst hc <;> decide
  | unary r a ih =>
      simp only [Formula.wf, Bool.and_eq_true] at hwf
      obtain ⟨hr, hwa⟩ := hwf
      simp only [is_unary, decide_eq_true_eq] at hr; subst hr
      simp only [to_implies_false]
      simp [mem_operators_binary, Finset.insert_subset_iff,
        Finset.union_subset_iff, ih hwa, Formula.operators, is_constant,
        is_variable]
  | binary r a b iha ihb =>
      simp only [Formula.wf, Bool.and_eq_true] at hwf
      obtain ⟨⟨hr, hwa⟩, hwb⟩ := hwf
      have ha := iha hwa
      have hb := ihb hwb
      simp only [is_binary, Bool.or_eq_true, decide_eq_true_eq] at hr
      rcases hr with ((((((h | h) | h) | h) | h) | h) | h) <;> subst h <;>
        · simp only [to_implies_false]
          simp [mem_operators_binary, Finset.insert_subset_iff,
            Finset.union_subset_iff, ha, hb, is_constant, is_variable,
            Formula.operators]

/-- C5.  Each reducer's output uses only its target basis (operator set
including constants): `{~,&,|}` for `to_not_and_or`, `{~,&}` for
`to_not_and`, `{-&}` for `to_nand`, `{->,~}` for `to_implies_not`,
`{->,F}` for `to_implies_false`. -/
theorem reducers_target_basis (f : Formula) (hwf : f.wf = true) :
    (to_not_and_or f).operators ⊆ ({"~", "&", "|"} : Finset String)
    ∧ (to_not_and f).operators ⊆ ({"~", "&"} : Finset String)
    ∧ (to_nand f).operators ⊆ ({"-&"} : Finset String)
    ∧ (to_implies_not f).operators ⊆ ({"->", "~"} : Finset String)
    ∧ (to_implies_false f).operators ⊆ ({"->", "F"} : Finset String) :=
  ⟨operators_to_not_and_or hwf, operators_to_not_and hwf, operators_to_nand hwf,
    operators_to_implies_not hwf, operators_to_implies_false hwf⟩

/-- Witness for C5 at a concrete formula exercising a constant and an
eliminated operator. -/
theorem reducers_target_basis_witness :
    (to_not_and_or (Formula.binary "+" (.leaf "T") (.leaf "p"))).operators ⊆
        ({"~", "&", "|"} : Finset String)
    ∧ (to_not_and (Formula.binary "+" (.leaf "T") (.leaf "p"))).operators ⊆
        ({"~", "&"} : Finset String)
    ∧ (to_nand (Formula.binary "+" (.leaf "T") (.leaf "p"))).operators ⊆
        ({"-&"} : Finset String)
    ∧ (to_implies_not (Formula.binary "+" (.leaf "T") (.leaf "p"))).operators ⊆
        ({"->", "~"} : Finset String)
    ∧ (to_implies_false (Formula.binary "+" (.leaf "T") (.leaf "p"))).operators ⊆
        ({"->", "F"} : Finset String) :=
  reducers_target_basis _ (by decide)

/-- C1 counterexample: the claim fails as stated.  For `A = T` the model
over exactly `A`'s (empty) variable set is the empty model; `A` evaluates
to true in it, but `to_not_and_or A = (p|~p)` mentions the fresh variable
`p`, so evaluating it in the empty model is an error (Python fails its
model-coverage assertion; here `none`), not the same truth value. -/
theorem reduction_fails_on_exact_variable_models :
    (Formula.leaf "T").wf = true
    ∧ is_model ([] : Model) = true
    ∧ modelKeys ([] : Model) = []
    ∧ (Formula.leaf "T").variables = ∅
    ∧ evaluate (Formula.leaf "T") [] = some true
    ∧ evaluate (to_not_and_or (Formula.leaf "T")) [] = none := by decide

/-- C1 amended: each of the five reducers is truth-table-preserving over
every model that covers both the original formula's variables and the
reduced formula's variables (for constant-free formulas these coincide
with the original variable set; the reducers other than
`to_implies_false` introduce the variable `p` when eliminating a
constant). -/
theorem reducers_preserve_truth (f : Formula) (m : Model) (hwf : f.wf = true)
    (_hm : is_model m = true) :
    ((∀ v ∈ f.variables ∪ (to_not_and_or f).variables, v ∈ modelKeys m) →
        evaluate (to_not_and_or f) m = evaluate f m)
    ∧ ((∀ v ∈ f.variables ∪ (to_not_and f).variables, v ∈ modelKeys m) →
        evaluate (to_not_and f) m = evaluate f m)
    ∧ ((∀ v ∈ f.variables ∪ (to_nand f).variables, v ∈ modelKeys m) →
        evaluate (to_nand f) m = evaluate f m)
    ∧ ((∀ v ∈ f.variables ∪ (to_implies_not f).variables, v ∈ modelKeys m) →
        evaluate (to_implies_not f) m = evaluate f m)
    ∧ ((∀ v ∈ f.variables ∪ (to_implies_false f).variables, v ∈ modelKeys m) →
        evaluate (to_implies_false f) m = evaluate f m) := by
  refine ⟨fun hdom => ?_, fun hdom => ?_, fun hdom => ?_, fun hdom => ?_,
    fun hdom => ?_⟩ <;>
    · have hdf : ∀ v ∈ f.variables, v ∈ modelKeys m := fun v hv =>
        hdom v (Finset.mem_union_left _ hv)
      have hdr := fun v hv => hdom v (Finset.mem_union_right _ hv)
      first
        | rw [evaluate_eq_evalT hwf hdf, evaluate_eq_evalT (wf_to_not_and_or hwf) hdr,
            evalT_to_not_and_or _ hwf]
        | rw [evaluate_eq_evalT hwf hdf, evaluate_eq_evalT (wf_to_not_and hwf) hdr,
            evalT_to_not_and _ hwf]
        | rw [evaluate_eq_evalT hwf hdf, evaluate_eq_evalT (wf_to_nand hwf) hdr,
            evalT_to_nand _ hwf]
        | rw [evaluate_eq_evalT hwf hdf, evaluate_eq_evalT (wf_to_implies_not hwf) hdr,
            evalT_to_implies_not _ hwf]
        | rw [evaluate_eq_evalT hwf hdf, evaluate_eq_evalT (wf_to_implies_false hwf) hdr,
            evalT_to_implies_false _ hwf]

/-- Witness for the amended C1: adding the fresh variable `p` to the
model makes the reduction of `T` evaluate like `T`. -/
theorem reducers_preserve_truth_witness :
    evaluate (to_not_and_or (Formula.leaf "T")) [("p", true)] =
      evaluate (Formula.leaf "T") [("p", true)] :=
  (reducers_preserve_truth (Formula.leaf "T") [("p", true)] (by decide)
    (by decide)).1 (by decide)

/-- Source `_synthesize_for_all_except_model` (semantics.py): a single
disjunctive clause that is false exactly in the given model, built from
the model's own keys (negated literal where the model is true).  The
source's `clause = None` start corresponds to the empty-key fallback,
unreachable under the source's nonemptiness assertion. -/
def _synthesize_for_all_except_model (model : Model) : Formula :=
  let lits := (modelKeys model).map (fun v =>
    if (modelLookup model v).getD false then Formula.unary "~" (.leaf v)
    else Formula.leaf v)
  match lits with
  | [] => default
  | l :: ls => ls.foldl (fun c lit => .binary "|" c lit) l

/-- Source `synthesize` (semantics.py): DNF synthesis.  For each model
(in `all_models` order) whose target value is true, build the conjunction
of literals over the given variable order; join the clauses with `|`;
if no value is true return the fixed contradiction `v&~v` over the first
variable. -/
def synthesize (variable_list : List String) (values : List Bool) : Formula :=
  let models := all_models variable_list
  let clauses := (models.zip values).filterMap (fun mv =>
    if mv.2 then
      some (
        match variable_list.map (fun v =>
            if (modelLookup mv.1 v).getD false then Formula.leaf v
            else Formula.unary "~" (.leaf v)) with
        | [] => default
        | l :: ls => ls.foldl (fun c lit => .binary "&" c lit) l)
    else none)
  match clauses with
  | [] =>
      .binary "&" (.leaf variable_list.headI) (.unary "~" (.leaf variable_list.headI))
  | c :: cs => cs.foldl (fun acc cl => .binary "|" acc cl) c

/-- Source `synthesize_cnf` (semantics.py): CNF synthesis, dual to
`synthesize`: one disjunctive clause per model whose target value is
false, joined with `&`; if no value is false return the fixed tautology
`v|~v` over the first variable. -/
def synthesize_cnf (variable_list : List String) (values : List Bool) : Formula :=
  let models := all_models variable_list
  let clauses := (models.zip values).filterMap (fun mv =>
    if mv.2 then none else some (_synthesize_for_all_except_model mv.1))
  match clauses with
  | [] =>
      .binary "|" (.leaf variable_list.headI) (.unary "~" (.leaf variable_list.headI))
  | c :: cs => cs.foldl (fun acc cl => .binary "&" acc cl) c

lemma evaluate_lit {v : String} {m' : Model} (hval : is_variable v = true)
    (hmem : v ∈ modelKeys m') (b : Bool) :
    evaluate (if b then Formula.leaf v else Formula.unary "~" (.leaf v)) m' =
      some (modelAssign m' v == b) := by
  obtain ⟨c, hc⟩ := Option.isSome_iff_exists.mp (modelLookup_isSome_iff.mpr hmem)
  have hassign : modelAssign m' v = c := by simp [modelAssign, hc]
  cases b <;>
    simp [evaluate, hval, is_variable_not_constant hval, is_unary, hc, hassign]

lemma evaluate_lit_neg {v : String} {m' : Model} (hval : is_variable v = true)
    (hmem : v ∈ modelKeys m') (b : Bool) :
    evaluate (if b then Formula.unary "~" (.leaf v) else Formula.leaf v) m' =
      some (modelAssign m' v != b) := by
  obtain ⟨c, hc⟩ := Option.isSome_iff_exists.mp (modelLookup_isSome_iff.mpr hmem)
  have hassign : modelAssign m' v = c := by simp [modelAssign, hc]
  cases b <;>
    simp [evaluate, hval, is_variable_not_constant hval, is_unary, hc, hassign]

lemma evaluate_foldl_and {ls : List Formula} {acc : Formula} {m' : Model} {x : Bool}
    (hacc : evaluate acc m' = some x)
    (hls : ∀ l ∈ ls, ∃ b, evaluate l m' = some b) :
    evaluate (ls.foldl (fun c lit => Formula.binary "&" c lit) acc) m' =
      some (x && ls.all (fun l => (evaluate l m').getD false)) := by
  induction ls generalizing acc x with
  | nil => simpa using hacc
  | cons l ls ih =>
      obtain ⟨bl, hbl⟩ := hls l (by simp)
      have hacc' : evaluate (Formula.binary "&" acc l) m' = some (x && bl) := by
        simp [evaluate, hacc, hbl]
      rw [List.foldl_cons, ih hacc' (fun l hl => hls l (by simp [hl]))]
      simp [hbl, Bool.and_assoc]

lemma evaluate_foldl_or {ls : List Formula} {acc : Formula} {m' : Model} {x : Bool}
    (hacc : evaluate acc m' = some x)
    (hls : ∀ l ∈ ls, ∃ b, evaluate l m' = some b) :
    evaluate (ls.foldl (fun c lit => Formula.binary "|" c lit) acc) m' =
      some (x || ls.any (fun l => (evaluate l m').getD false)) := by
  induction ls generalizing acc x with
  | nil => simpa using hacc
  | cons l ls ih =>
      obtain ⟨bl, hbl⟩ := hls l (by simp)
      have hacc' : evaluate (Formula.binary "|" acc l) m' = some (x || bl) := by
        simp [evaluate, hacc, hbl]
      rw [List.foldl_cons, ih hacc' (fun l hl => hls l (by simp [hl]))]
      simp [hbl, Bool.or_assoc]

lemma all_congr_of_mem {α : Type} {l : List α} {p q : α → Bool}
    (h : ∀ x ∈ l, p x = q x) : l.all p = l.all q := by
  induction l with
  | nil => rfl
  | cons x xs ih =>
      simp only [List.all_cons, h x (by simp)]
      rw [ih (fun y hy => h y (by simp [hy]))]

lemma any_congr_of_mem {α : Type} {l : List α} {p q : α → Bool}
    (h : ∀ x ∈ l, p x = q x) : l.any p = l.any q := by
  induction l with
  | nil => rfl
  | cons x xs ih =>
      simp only [List.any_cons, h x (by simp)]
      rw [ih (fun y hy => h y (by simp [hy]))]

lemma any_not_eq_not_all {α : Type} {l : List α} {q : α → Bool} :
    (l.any fun x => !q x) = !(l.all q) := by
  induction l with
  | nil => rfl
  | cons x xs ih => simp [List.any_cons, List.all_cons, ih]

lemma modelAssign_zip_head {v : String} {vt : List String} {b : Bool} {bt : List Bool} :
    modelAssign ((v :: vt).zip (b :: bt)) v = b := by
  simp [modelAssign, List.zip, modelLookup]

lemma modelAssign_zip_tail {v w : String} {vt : List String} {b : Bool}
    {bt : List Bool} (h : v ≠ w) :
    modelAssign ((v :: vt).zip (b :: bt)) w = modelAssign (vt.zip bt) w := by
  simp [modelAssign, List.zip, modelLookup, h]

/-- Two models zipped over the same duplicate-free variable list agree on
all the variables iff the value lists are equal. -/
lemma assign_zip_agree_iff {vl : List String} {bs cs : List Bool} (hnd : vl.Nodup)
    (hb : bs.length = vl.length) (hc : cs.length = vl.length) :
    (∀ v ∈ vl, modelAssign (vl.zip cs) v = modelAssign (vl.zip bs) v) ↔ cs = bs := by
  induction vl generalizing bs cs with
  | nil =>
      have : bs = [] := List.length_eq_zero.mp hb
      have : cs = [] := List.length_eq_zero.mp hc
      subst_vars
      simp
  | cons v vt ih =>
      match bs, cs, hb, hc with
      | b :: bt, c :: ct, hb, hc =>
          have hbt : bt.length = vt.length := by simpa using hb
          have hct : ct.length = vt.length := by simpa using hc
          obtain ⟨hv, hndt⟩ := List.nodup_cons.mp hnd
          constructor
          · intro h
            have hhead : c = b := by
              have := h v (by simp)
              rwa [modelAssign_zip_head, modelAssign_zip_head] at this
            subst hhead
            have htail : ct = bt := by
              rw [← ih hndt hbt hct]
              intro w hw
              have hne : v ≠ w := fun hvw => hv (hvw ▸ hw)
              have := h w (by simp [hw])
              rwa [modelAssign_zip_tail hne, modelAssign_zip_tail hne] at this
            rw [htail]
          · intro heq
            injection heq with h1 h2
            subst h1
            subst h2
            intro w _
            rfl
lemma all_map_general {α β : Type} (f : α → β) (l : List α) (p : β → Bool) :
    (l.map f).all p = l.all (fun x => p (f x)) := by
  induction l with
  | nil => rfl
  | cons x xs ih => simp [ih]

lemma any_map_general {α β : Type} (f : α → β) (l : List α) (p : β → Bool) :
    (l.map f).any p = l.any (fun x => p (f x)) := by
  induction l with
  | nil => rfl
  | cons x xs ih => simp [ih]

/-- Evaluating a conjunction-of-literals clause built from model `m` over
the variable list: it is true in `m'` iff `m'` agrees with `m` on every
listed variable. -/
lemma evaluate_minterm {vl : List String} (m : Model) {m' : Model}
    (hne : vl ≠ []) (hval : ∀ v ∈ vl, is_variable v = true)
    (hdef : ∀ v ∈ vl, v ∈ modelKeys m') :
    evaluate
      (match vl.map (fun v =>
          if (modelLookup m v).getD false then Formula.leaf v
          else Formula.unary "~" (.leaf v)) with
        | [] => default
        | l :: ls => ls.foldl (fun c lit => Formula.binary "&" c lit) l) m' =
      some (vl.all fun v => modelAssign m' v == modelAssign m v) := by
  have hma : ∀ (mm : Model) (w : String),
      (modelLookup mm w).getD false = modelAssign mm w := fun _ _ => rfl
  match vl, hne, hval, hdef with
  | v :: vt, _, hval, hdef =>
      simp only [List.map_cons, hma]
      have hacc := evaluate_lit (hval v (by simp)) (hdef v (by simp)) (modelAssign m v)
      have hls : ∀ l ∈ vt.map (fun v =>
          if modelAssign m v then Formula.leaf v
          else Formula.unary "~" (.leaf v)), ∃ b, evaluate l m' = some b := by
        intro l hl
        obtain ⟨w, hw, rfl⟩ := List.mem_map.mp hl
        exact ⟨_, evaluate_lit (hval w (by simp [hw])) (hdef w (by simp [hw]))
          (modelAssign m w)⟩
      rw [evaluate_foldl_and hacc hls, all_map_general]
      have hcongr : ∀ w ∈ vt,
          ((evaluate (if modelAssign m w then Formula.leaf w
            else Formula.unary "~" (.leaf w)) m').getD false) =
          (modelAssign m' w == modelAssign m w) := by
        intro w hw
        rw [evaluate_lit (hval w (by simp [hw])) (hdef w (by simp [hw]))
          (modelAssign m w)]
        rfl
      rw [all_congr_of_mem hcongr]
      simp [List.all_cons]

/-- Evaluating the disjunction clause of
`_synthesize_for_all_except_model` over a zipped model: it is false in
`m'` exactly when `m'` agrees with the given model on every variable. -/
lemma evaluate_cnf_clause {vl : List String} {bs : List Bool} {m' : Model}
    (hne : vl ≠ []) (hval : ∀ v ∈ vl, is_variable v = true)
    (hdef : ∀ v ∈ vl, v ∈ modelKeys m') (hlen : bs.length = vl.length) :
    evaluate (_synthesize_for_all_except_model (vl.zip bs)) m' =
      some (!(vl.all fun v => modelAssign m' v == modelAssign (vl.zip bs) v)) := by
  have hma : ∀ (mm : Model) (w : String),
      (modelLookup mm w).getD false = modelAssign mm w := fun _ _ => rfl
  unfold _synthesize_for_all_except_model
  have hkeys : modelKeys (vl.zip bs) = vl := List.map_fst_zip vl bs (by omega)
  rw [hkeys]
  match vl, hne, hval, hdef with
  | v :: vt, _, hval, hdef =>
      simp only [List.map_cons, hma]
      have hacc := evaluate_lit_neg (hval v (by simp)) (hdef v (by simp))
        (modelAssign ((v :: vt).zip bs) v)
      have hls : ∀ l ∈ vt.map (fun w =>
          if modelAssign ((v :: vt).zip bs) w then Formula.unary "~" (.leaf w)
          else Formula.leaf w), ∃ b, evaluate l m' = some b := by
        intro l hl
        obtain ⟨w, hw, rfl⟩ := List.mem_map.mp hl
        exact ⟨_, evaluate_lit_neg (hval w (by simp [hw])) (hdef w (by simp [hw]))
          (modelAssign ((v :: vt).zip bs) w)⟩
      rw [evaluate_foldl_or hacc hls, any_map_general]
      have hcongr : ∀ w ∈ vt,
          ((evaluate (if modelAssign ((v :: vt).zip bs) w then
              Formula.unary "~" (.leaf w)
            else Formula.leaf w) m').getD false) =
          (!(modelAssign m' w == modelAssign ((v :: vt).zip bs) w)) := by
        intro w hw
        rw [evaluate_lit_neg (hval w (by simp [hw])) (hdef w (by simp [hw]))
          (modelAssign ((v :: vt).zip bs) w)]
        simp [bne]
      rw [any_congr_of_mem hcongr, any_not_eq_not_all]
      simp only [List.all_cons]
      congr 1
      cases hb : (modelAssign m' v == modelAssign ((v :: vt).zip bs) v) <;>
        simp [bne, hb]

lemma any_filterMap {α β : Type} (g : α → Option β) (p : β → Bool) (l : List α) :
    (l.filterMap g).any p = l.any (fun a => (g a).elim false p) := by
  induction l with
  | nil => rfl
  | cons x xs ih =>
      cases hg : g x <;>
        simp [List.filterMap_cons, hg, ih, List.any_cons]

lemma all_filterMap {α β : Type} (g : α → Option β) (p : β → Bool) (l : List α) :
    (l.filterMap g).all p = l.all (fun a => (g a).elim true p) := by
  induction l with
  | nil => rfl
  | cons x xs ih =>
      cases hg : g x <;>
        simp [List.filterMap_cons, hg, ih, List.all_cons]

lemma snd_of_mem_zip_range {k : Nat} {values : List Bool} {i : Nat} {val : Bool}
    (h : (i, val) ∈ (List.range k).zip values) :
    i < k ∧ ∃ hi : i < values.length, values[i] = val := by
  obtain ⟨t, ht, hgt⟩ := List.getElem_of_mem h
  have hlt : t < k ∧ t < values.length := by
    have := ht
    rw [List.length_zip, List.length_range] at this
    omega
  rw [List.getElem_zip, List.getElem_range, Prod.mk.injEq] at hgt
  obtain ⟨rfl, hval⟩ := hgt
  exact ⟨hlt.1, hlt.2, hval⟩

lemma mem_zip_range_self {values : List Bool} {j : Nat} (hj : j < values.length) :
    (j, values[j]) ∈ (List.range values.length).zip values := by
  rw [List.mem_iff_getElem]
  refine ⟨j, ?_, ?_⟩
  · rw [List.length_zip, List.length_range]
    omega
  · rw [List.getElem_zip, List.getElem_range]

lemma any_zip_range_delta {values : List Bool} {j : Nat} (hj : j < values.length) :
    (((List.range values.length).zip values).any fun p =>
      p.2 && decide (p.1 = j)) = values[j] := by
  cases hv : values[j] with
  | false =>
      rw [← Bool.not_eq_true, List.any_eq_true]
      rintro ⟨⟨i, val⟩, hmem, hp⟩
      simp only [Bool.and_eq_true, decide_eq_true_eq] at hp
      obtain ⟨hval, rfl⟩ := hp
      obtain ⟨-, hi, hvi⟩ := snd_of_mem_zip_range hmem
      rw [hvi] at hv
      rw [hv] at hval
      exact absurd hval (by simp)
  | true =>
      rw [List.any_eq_true]
      refine ⟨(j, values[j]), mem_zip_range_self hj, ?_⟩
      simp [hv]

lemma all_zip_range_delta {values : List Bool} {j : Nat} (hj : j < values.length) :
    (((List.range values.length).zip values).all fun p =>
      p.2 || !(decide (p.1 = j))) = values[j] := by
  cases hv : values[j] with
  | true =>
      rw [List.all_eq_true]
      rintro ⟨i, val⟩ hmem
      obtain ⟨-, hi, hvi⟩ := snd_of_mem_zip_range hmem
      by_cases hij : i = j
      · subst hij
        rw [hvi] at hv
        simp [hv]
      · simp [hij]
  | false =>
      rw [← Bool.not_eq_true, List.all_eq_true]
      intro hall
      have := hall (j, values[j]) (mem_zip_range_self hj)
      rw [hv] at this
      simp at this

/-- The minterm clause for counter value `i` is the indicator of model
`i` on the binary-counter models. -/
lemma minterm_indicator {vl : List String} (hval : ∀ v ∈ vl, is_variable v = true)
    (hnd : vl.Nodup) (hne : vl ≠ []) {n : Nat} (hn : n = vl.length)
    {i j : Nat} (hi : i < 2 ^ n) (hj : j < 2 ^ n) :
    evaluate
      (match vl.map (fun v =>
          if (modelLookup (vl.zip (bitsBE n i)) v).getD false then Formula.leaf v
          else Formula.unary "~" (.leaf v)) with
        | [] => default
        | l :: ls => ls.foldl (fun c lit => Formula.binary "&" c lit) l)
      (vl.zip (bitsBE n j)) =
      some (decide (i = j)) := by
  have hkeys : modelKeys (vl.zip (bitsBE n j)) = vl :=
    List.map_fst_zip vl _ (by rw [bitsBE_length]; exact hn.ge)
  have hdef : ∀ v ∈ vl, v ∈ modelKeys (vl.zip (bitsBE n j)) := by
    rw [hkeys]
    exact fun v hv => hv
  rw [evaluate_minterm (vl.zip (bitsBE n i)) hne hval hdef]
  congr 1
  by_cases hij : i = j
  · subst hij
    simp [List.all_eq_true]
  · rw [decide_eq_false hij, ← Bool.not_eq_true]
    intro hall
    rw [List.all_eq_true] at hall
    have hagree : ∀ v ∈ vl,
        modelAssign (vl.zip (bitsBE n j)) v = modelAssign (vl.zip (bitsBE n i)) v := by
      intro v hv
      have := hall v hv
      simpa using this
    have := (assign_zip_agree_iff hnd (by rw [bitsBE_length]; omega)
      (by rw [bitsBE_length]; omega)).mp hagree
    exact hij (bitsBE_inj hj hi this).symm

/-- The CNF clause for counter value `i` is the co-indicator of model `i`
on the binary-counter models. -/
lemma cnf_clause_indicator {vl : List String} (hval : ∀ v ∈ vl, is_variable v = true)
    (hnd : vl.Nodup) (hne : vl ≠ []) {n : Nat} (hn : n = vl.length)
    {i j : Nat} (hi : i < 2 ^ n) (hj : j < 2 ^ n) :
    evaluate (_synthesize_for_all_except_model (vl.zip (bitsBE n i)))
      (vl.zip (bitsBE n j)) = some (!(decide (i = j))) := by
  have hkeys : modelKeys (vl.zip (bitsBE n j)) = vl :=
    List.map_fst_zip vl _ (by rw [bitsBE_length]; exact hn.ge)
  have hdef : ∀ v ∈ vl, v ∈ modelKeys (vl.zip (bitsBE n j)) := by
    rw [hkeys]
    exact fun v hv => hv
  rw [evaluate_cnf_clause hne hval hdef (by rw [bitsBE_length]; exact hn)]
  congr 1
  by_cases hij : i = j
  · subst hij
    simp [List.all_eq_true]
  · rw [decide_eq_false hij]
    simp only [Bool.not_false, Bool.not_eq_true']
    rw [← Bool.not_eq_true]
    intro hall
    rw [List.all_eq_true] at hall
    have hagree : ∀ v ∈ vl,
        modelAssign (vl.zip (bitsBE n j)) v = modelAssign (vl.zip (bitsBE n i)) v := by
      intro v hv
      have := hall v hv
      simpa using this
    have := (assign_zip_agree_iff hnd (by rw [bitsBE_length]; omega)
      (by rw [bitsBE_length]; omega)).mp hagree
    exact hij (bitsBE_inj hj hi this).symm

lemma evaluate_contradiction {v : String} {m : Model} (hval : is_variable v = true)
    (hmem : v ∈ modelKeys m) :
    evaluate (Formula.binary "&" (.leaf v) (.unary "~" (.leaf v))) m = some false := by
  obtain ⟨c, hc⟩ := Option.isSome_iff_exists.mp (modelLookup_isSome_iff.mpr hmem)
  simp [evaluate, hval, is_variable_not_constant hval, is_unary, hc]

lemma evaluate_tautology {v : String} {m : Model} (hval : is_variable v = true)
    (hmem : v ∈ modelKeys m) :
    evaluate (Formula.binary "|" (.leaf v) (.unary "~" (.leaf v))) m = some true := by
  obtain ⟨c, hc⟩ := Option.isSome_iff_exists.mp (modelLookup_isSome_iff.mpr hmem)
  simp [evaluate, hval, is_variable_not_constant hval, is_unary, hc]

/-- The conjunction clause `synthesize` builds for one model (named form
of the inline construction). -/
def minterm_of (vl : List String) (m : Model) : Formula :=
  match vl.map (fun v =>
      if (modelLookup m v).getD false then Formula.leaf v
      else Formula.unary "~" (.leaf v)) with
  | [] => default
  | l :: ls => ls.foldl (fun c lit => Formula.binary "&" c lit) l

lemma headI_mem_of_ne_nil {vl : List String} (hne : vl ≠ []) : vl.headI ∈ vl := by
  cases vl with
  | nil => exact absurd rfl hne
  | cons v vt => simp

lemma all_models_eq_map   {vl : List String} :
    all_models vl = (List.range (2 ^ vl.length)).map
      (fun i => vl.zip (bitsBE vl.length i)) := by
  rw [all_models, productBools_eq_map, List.map_map]
  rfl

lemma zip_values_eq_map {vl : List String} {values : List Bool} :
    (all_models vl).zip values =
      ((List.range (2 ^ vl.length)).zip values).map
        (fun p => (vl.zip (bitsBE vl.length p.1), p.2)) := by
  rw [all_models_eq_map, List.zip_map_left]
  apply List.map_congr_left
  intro p _
  cases p
  rfl


/-- `synthesize` with the models and clauses written over the binary
counter. -/
lemma synthesize_eq (vl : List String) (values : List Bool) :
    synthesize vl values =
      match ((List.range (2 ^ vl.length)).zip values).filterMap
          (fun p => if p.2 then
              some (minterm_of vl (vl.zip (bitsBE vl.length p.1)))
            else none) with
      | [] => Formula.binary "&" (.leaf vl.headI) (.unary "~" (.leaf vl.headI))
      | c :: cs => cs.foldl (fun acc cl => Formula.binary "|" acc cl) c := by
  simp only [synthesize, minterm_of]
  rw [zip_values_eq_map, List.filterMap_map]
  rfl

/-- `synthesize_cnf` with the models and clauses written over the binary
counter. -/
lemma synthesize_cnf_eq (vl : List String) (values : List Bool) :
    synthesize_cnf vl values =
      match ((List.range (2 ^ vl.length)).zip values).filterMap
          (fun p => if p.2 then none
            else some (_synthesize_for_all_except_model
              (vl.zip (bitsBE vl.length p.1)))) with
      | [] => Formula.binary "|" (.leaf vl.headI) (.unary "~" (.leaf vl.headI))
      | c :: cs => cs.foldl (fun acc cl => Formula.binary "&" acc cl) c := by
  simp only [synthesize_cnf]
  rw [zip_values_eq_map, List.filterMap_map]
  rfl

/-- Evaluating the synthesized DNF formula on the `j`-th counter model
gives the `j`-th requested value. -/
lemma evaluate_synthesize_at {vl : List String} {values : List Bool}
    (hne : vl ≠ []) (hval : ∀ v ∈ vl, is_variable v = true) (hnd : vl.Nodup)
    (hlenv : values.length = 2 ^ vl.length)
    {j : Nat} (hj : j < 2 ^ vl.length) :
    evaluate (synthesize vl values) (vl.zip (bitsBE vl.length j)) =
      some (values.getD j false) := by
  have hjv : j < values.length := by omega
  have hkeysj : modelKeys (vl.zip (bitsBE vl.length j)) = vl :=
    List.map_fst_zip vl _ (by simp [bitsBE_length])
  have hminterm : ∀ i, i < 2 ^ vl.length →
      evaluate (minterm_of vl (vl.zip (bitsBE vl.length i)))
          (vl.zip (bitsBE vl.length j)) = some (decide (i = j)) := by
    intro i hi
    exact minterm_indicator hval hnd hne rfl hi hj
  rw [synthesize_eq]
  cases hc : ((List.range (2 ^ vl.length)).zip values).filterMap
      (fun p => if p.2 then
          some (minterm_of vl (vl.zip (bitsBE vl.length p.1)))
        else none) with
  | nil =>
      rw [List.filterMap_eq_nil_iff] at hc
      have hmemj : (j, values[j]) ∈ (List.range (2 ^ vl.length)).zip values := by
        rw [← hlenv]
        exact mem_zip_range_self hjv
      have hvj : values[j] = false := by
        have hcj := hc (j, values[j]) hmemj
        by_contra hb
        rw [Bool.not_eq_false] at hb
        rw [hb] at hcj
        simp at hcj
      rw [List.getD_eq_getElem values false hjv, hvj]
      exact evaluate_contradiction (hval _ (headI_mem_of_ne_nil hne))
        (by rw [hkeysj]; exact headI_mem_of_ne_nil hne)
  | cons c cs =>
      have hcl_mem : ∀ cl ∈ c :: cs, ∃ i, i < 2 ^ vl.length ∧
          cl = minterm_of vl (vl.zip (bitsBE vl.length i)) := by
        intro cl hcl
        rw [← hc] at hcl
        obtain ⟨⟨i, val⟩, hpmem, hpg⟩ := List.mem_filterMap.mp hcl
        obtain ⟨hi, -⟩ := snd_of_mem_zip_range hpmem
        refine ⟨i, hi, ?_⟩
        rcases val with _ | _
        · simp at hpg
        · simpa using hpg.symm
      obtain ⟨ic, hic, rfl⟩ := hcl_mem c (by simp)
      show evaluate (cs.foldl (fun acc cl => Formula.binary "|" acc cl)
          (minterm_of vl (vl.zip (bitsBE vl.length ic))))
        (vl.zip (bitsBE vl.length j)) = some (values.getD j false)
      have hacc := hminterm ic hic
      have hls : ∀ l ∈ cs, ∃ b, evaluate l (vl.zip (bitsBE vl.length j)) = some b := by
        intro l hl
        obtain ⟨i, hi, rfl⟩ := hcl_mem l (by simp [hl])
        exact ⟨_, hminterm i hi⟩
      rw [evaluate_foldl_or hacc hls]
      congr 1
      have hany : (decide (ic = j) || cs.any fun l =>
            (evaluate l (vl.zip (bitsBE vl.length j))).getD false) =
          ((minterm_of vl (vl.zip (bitsBE vl.length ic)) :: cs).any fun l =>
            (evaluate l (vl.zip (bitsBE vl.length j))).getD false) := by
        simp [hacc]
      rw [hany, ← hc, any_filterMap, List.getD_eq_getElem values false hjv]
      have hrange : (2 : Nat) ^ vl.length = values.length := hlenv.symm
      rw [hrange, ← @any_zip_range_delta values j hjv]
      apply any_congr_of_mem
      rintro ⟨i, val⟩ hmem
      obtain ⟨hi, -⟩ := snd_of_mem_zip_range hmem
      rcases val with _ | _
      · simp
      · simp [hminterm i (by omega)]

/-- Evaluating the synthesized CNF formula on the `j`-th counter model
gives the `j`-th requested value. -/
lemma evaluate_synthesize_cnf_at {vl : List String} {values : List Bool}
    (hne : vl ≠ []) (hval : ∀ v ∈ vl, is_variable v = true) (hnd : vl.Nodup)
    (hlenv : values.length = 2 ^ vl.length)
    {j : Nat} (hj : j < 2 ^ vl.length) :
    evaluate (synthesize_cnf vl values) (vl.zip (bitsBE vl.length j)) =
      some (values.getD j false) := by
  have hjv : j < values.length := by omega
  have hkeysj : modelKeys (vl.zip (bitsBE vl.length j)) = vl :=
    List.map_fst_zip vl _ (by simp [bitsBE_length])
  have hclause : ∀ i, i < 2 ^ vl.length →
      evaluate (_synthesize_for_all_except_model (vl.zip (bitsBE vl.length i)))
          (vl.zip (bitsBE vl.length j)) = some (!(decide (i = j))) := by
    intro i hi
    exact cnf_clause_indicator hval hnd hne rfl hi hj
  rw [synthesize_cnf_eq]
  cases hc : ((List.range (2 ^ vl.length)).zip values).filterMap
      (fun p => if p.2 then none
        else some (_synthesize_for_all_except_model
          (vl.zip (bitsBE vl.length p.1)))) with
  | nil =>
      rw [List.filterMap_eq_nil_iff] at hc
      have hmemj : (j, values[j]) ∈ (List.range (2 ^ vl.length)).zip values := by
        rw [← hlenv]
        exact mem_zip_range_self hjv
      have hvj : values[j] = true := by
        have hcj := hc (j, values[j]) hmemj
        by_contra hb
        rw [Bool.not_eq_true] at hb
        rw [hb] at hcj
        simp at hcj
      rw [List.getD_eq_getElem values false hjv, hvj]
      exact evaluate_tautology (hval _ (headI_mem_of_ne_nil hne))
        (by rw [hkeysj]; exact headI_mem_of_ne_nil hne)
  | cons c cs =>
      have hcl_mem : ∀ cl ∈ c :: cs, ∃ i, i < 2 ^ vl.length ∧
          cl = _synthesize_for_all_except_model (vl.zip (bitsBE vl.length i)) := by
        intro cl hcl
        rw [← hc] at hcl
        obtain ⟨⟨i, val⟩, hpmem, hpg⟩ := List.mem_filterMap.mp hcl
        obtain ⟨hi, -⟩ := snd_of_mem_zip_range hpmem
        refine ⟨i, hi, ?_⟩
        rcases val with _ | _
        · simpa using hpg.symm
        · simp at hpg
      obtain ⟨ic, hic, rfl⟩ := hcl_mem c (by simp)
      show evaluate (cs.foldl (fun acc cl => Formula.binary "&" acc cl)
          (_synthesize_for_all_except_model (vl.zip (bitsBE vl.length ic))))
        (vl.zip (bitsBE vl.length j)) = some (values.getD j false)
      have hacc := hclause ic hic
      have hls : ∀ l ∈ cs, ∃ b, evaluate l (vl.zip (bitsBE vl.length j)) = some b := by
        intro l hl
        obtain ⟨i, hi, rfl⟩ := hcl_mem l (by simp [hl])
        exact ⟨_, hclause i hi⟩
      rw [evaluate_foldl_and hacc hls]
      congr 1
      have hall9 : ((!decide (ic = j)) && cs.all fun l =>
            (evaluate l (vl.zip (bitsBE vl.length j))).getD false) =
          ((_synthesize_for_all_except_model (vl.zip (bitsBE vl.length ic)) :: cs).all
            fun l => (evaluate l (vl.zip (bitsBE vl.length j))).getD false) := by
        simp [hacc]
      rw [hall9, ← hc, all_filterMap, List.getD_eq_getElem values false hjv]
      have hrange : (2 : Nat) ^ vl.length = values.length := hlenv.symm
      rw [hrange, ← @all_zip_range_delta values j hjv]
      apply all_congr_of_mem
      rintro ⟨i, val⟩ hmem
      obtain ⟨hi, -⟩ := snd_of_mem_zip_range hmem
      rcases val with _ | _
      · simp [hclause i (by omega)]
      · simp

/-- C6: for every nonempty duplicate-free list of variable names and every
truth-value sequence aligned with `all_models` of that list, `synthesize`
returns a formula whose truth values over `all_models` are exactly the
given sequence, and `synthesize_cnf` on the same input returns a formula
with the same truth table; in particular, when no value in the sequence is
true, `synthesize` returns the fixed formula `v&~v` for the first variable
`v`, and dually `synthesize_cnf` returns `v|~v` when no value is false. -/
theorem synthesize_truth_table (vl : List String) (values : List Bool)
    (hne : vl ≠ []) (hval : ∀ v ∈ vl, is_variable v = true) (hnd : vl.Nodup)
    (hlenv : values.length = 2 ^ vl.length) :
    truth_values (synthesize vl values) (all_models vl) = values.map some ∧
    truth_values (synthesize_cnf vl values) (all_models vl) = values.map some ∧
    (values.all (fun b => !b) = true →
      synthesize vl values =
        Formula.binary "&" (.leaf vl.headI) (.unary "~" (.leaf vl.headI))) ∧
    (values.all (fun b => b) = true →
      synthesize_cnf vl values =
        Formula.binary "|" (.leaf vl.headI) (.unary "~" (.leaf vl.headI))) := by
  refine ⟨?_, ?_, ?_, ?_⟩
  · unfold truth_values
    rw [all_models_eq_map, List.map_map]
    apply List.ext_getElem
    · simp [hlenv]
    · intro i h1i h2i
      have hi : i < 2 ^ vl.length := by simpa using h1i
      simp only [List.getElem_map, List.getElem_range, Function.comp]
      rw [evaluate_synthesize_at hne hval hnd hlenv hi,
        List.getD_eq_getElem values false (by omega)]
  · unfold truth_values
    rw [all_models_eq_map, List.map_map]
    apply List.ext_getElem
    · simp [hlenv]
    · intro i h1i h2i
      have hi : i < 2 ^ vl.length := by simpa using h1i
      simp only [List.getElem_map, List.getElem_range, Function.comp]
      rw [evaluate_synthesize_cnf_at hne hval hnd hlenv hi,
        List.getD_eq_getElem values false (by omega)]
  · intro hall
    rw [List.all_eq_true] at hall
    rw [synthesize_eq]
    have hnil : ((List.range (2 ^ vl.length)).zip values).filterMap
        (fun p => if p.2 then
            some (minterm_of vl (vl.zip (bitsBE vl.length p.1)))
          else none) = [] := by
      rw [List.filterMap_eq_nil_iff]
      rintro ⟨i, val⟩ hmem
      obtain ⟨-, hi, hvi⟩ := snd_of_mem_zip_range hmem
      have hv : val = false := by
        have := hall val (hvi ▸ List.getElem_mem hi)
        simpa using this
      simp [hv]
    rw [hnil]
  · intro hall
    rw [List.all_eq_true] at hall
    rw [synthesize_cnf_eq]
    have hnil : ((List.range (2 ^ vl.length)).zip values).filterMap
        (fun p => if p.2 then none
          else some (_synthesize_for_all_except_model
            (vl.zip (bitsBE vl.length p.1)))) = [] := by
      rw [List.filterMap_eq_nil_iff]
      rintro ⟨i, val⟩ hmem
      obtain ⟨-, hi, hvi⟩ := snd_of_mem_zip_range hmem
      have hv : val = true := hall val (hvi ▸ List.getElem_mem hi)
      simp [hv]
    rw [hnil]

/-- Witness for the synthesizer truth-table theorem at the spec's concrete
example: variables `["p","q"]` and values `[True, True, True, False]`. -/
theorem synthesize_truth_table_witness :
    truth_values (synthesize ["p", "q"] [true, true, true, false])
        (all_models ["p", "q"]) = [true, true, true, false].map some ∧
    truth_values (synthesize_cnf ["p", "q"] [true, true, true, false])
        (all_models ["p", "q"]) = [true, true, true, false].map some ∧
    ([true, true, true, false].all (fun b => !b) = true →
      synthesize ["p", "q"] [true, true, true, false] =
        Formula.binary "&" (.leaf (["p", "q"] : List String).headI)
          (.unary "~" (.leaf (["p", "q"] : List String).headI))) ∧
    ([true, true, true, false].all (fun b => b) = true →
      synthesize_cnf ["p", "q"] [true, true, true, false] =
        Formula.binary "|" (.leaf (["p", "q"] : List String).headI)
          (.unary "~" (.leaf (["p", "q"] : List String).headI))) :=
  synthesize_truth_table ["p", "q"] [true, true, true, false]
    (by decide) (by decide) (by decide) (by decide)

end MLTP
